import Mathlib

/-!
A shallow embedding of the reconciliation/synchronization engine of
`audio-transcode-watcher` (files `utils.py`, `config.py`, `encoder.py`,
`sync.py`), together with theorems settling the frozen claims about it.

Modelling conventions:
* A filesystem path is its list of components (`PathC`).  The Python code
  manipulates paths only through `os.path.join`, `os.path.dirname`,
  `os.path.basename`, `pathlib.Path(...).stem/.suffix` and component-wise
  NFC normalisation, all of which factor through components.
* Unicode NFC normalisation (`unicodedata.normalize("NFC", ·)`) is an
  external library operation; it is modelled as an abstract parameter
  `nfc : String → String`, applied component-wise exactly where the code
  applies it.
* The filesystem is a finite map from paths to file data, plus the set of
  existing directories, plus which directories raise on `os.scandir`
  (inaccessible) and which raise on `os.makedirs` (uncreatable).
* The external ffmpeg invocation (`subprocess.run`) is an oracle that, for
  a given argument vector, yields a return code, diagnostic text, and the
  (possibly partial) bytes it wrote to its output path.  `os.replace` may
  be forced to fail through the oracle as well, since the code handles
  that failure explicitly.
* Real time appears only in `wait_for_stable`; it is modelled by discrete
  polling ticks (one tick = one 0.2 s poll interval), with the observed
  file size a function of the tick.
-/

namespace ATW

/-- A filesystem path, as its list of components (`pathlib.Path(...).parts`,
with the leading root dropped). -/
abbrev PathC := List String

/-- `os.path.join dir name` for a single extra component. -/
def joinP (d : PathC) (n : String) : PathC := d ++ [n]

/-- `os.path.dirname`. -/
def dirnameP (p : PathC) : PathC := p.dropLast

/-- `os.path.basename`. -/
def basenameP (p : PathC) : String := p.getLastD ""

/-- Append a suffix string to the last component of a path
(`final_dest + ".tmp__ff"` in `encoder.py`). -/
def addSuffix (p : PathC) (suf : String) : PathC :=
  p.dropLast ++ [p.getLastD "" ++ suf]

/-- Render a path back to a flat string (used only where the Python code
embeds a path into an ffmpeg argument vector). -/
def renderPath (p : PathC) : String := String.intercalate "/" p

/-- `pat` occurs at the head of `l` (character-level). -/
def chrLead : List Char → List Char → Bool
  | [], _ => true
  | _ :: _, [] => false
  | a :: as, b :: bs => a == b && chrLead as bs

/-- Python `s.startswith(pat)`. -/
def strStarts (s pat : String) : Bool := chrLead pat.toList s.toList

/-- Python `s.endswith(pat)`. -/
def strEnds (s pat : String) : Bool := chrLead pat.toList.reverse s.toList.reverse

/-- Python `pat in s` (substring containment). -/
def strContains (s pat : String) : Bool :=
  (List.range (s.toList.length + 1)).any fun i => chrLead pat.toList (s.toList.drop i)

/-- Python `s.lower()` (ASCII case folding; the strings the code lowers are
ASCII). -/
def strLower (s : String) : String := String.mk (s.toList.map Char.toLower)

/-- Index of the last `'.'` in a character list, if any. -/
def lastDot : List Char → Option Nat
  | [] => none
  | c :: rest =>
    match lastDot rest with
    | some n => some (n + 1)
    | none => if c == '.' then some 0 else none

/-- Python `pathlib.PurePath(name).suffix` of a single file name: the part
from the last dot on, unless that dot is the first or the last character. -/
def pySuffix (name : String) : String :=
  let cs := name.toList
  match lastDot cs with
  | some i => if 0 < i ∧ i < cs.length - 1 then String.mk (cs.drop i) else ""
  | none => ""

/-- Python `pathlib.PurePath(name).stem` of a single file name. -/
def pyStem (name : String) : String :=
  let cs := name.toList
  match lastDot cs with
  | some i => if 0 < i ∧ i < cs.length - 1 then String.mk (cs.take i) else name
  | none => name

/-! ## The filesystem model -/

/-- Contents and metadata of one file. -/
structure FileData where
  data : String := ""
  mtime : Nat := 0
deriving DecidableEq, Inhabited

/-- The filesystem: files with their data, existing directories, directories
whose `os.scandir` raises, and directories whose `os.makedirs` raises. -/
structure FS where
  files : List (PathC × FileData) := []
  dirs : List PathC := []
  inaccessible : List PathC := []
  uncreatable : List PathC := []
deriving DecidableEq

/-- First binding of key `p` in an association list of files. -/
def lookupL : List (PathC × FileData) → PathC → Option FileData
  | [], _ => none
  | e :: l, p => if e.1 = p then some e.2 else lookupL l p

/-- Drop every binding of key `p`. -/
def eraseKey : List (PathC × FileData) → PathC → List (PathC × FileData)
  | [], _ => []
  | e :: l, p => if e.1 = p then eraseKey l p else e :: eraseKey l p

/-- Names of the keys lying directly inside directory `d`. -/
def namesIn : List (PathC × FileData) → PathC → List String
  | [], _ => []
  | e :: l, d =>
    if e.1 ≠ [] ∧ e.1.dropLast = d then e.1.getLastD "" :: namesIn l d
    else namesIn l d

/-- Names of the paths lying directly inside directory `d`. -/
def dnamesIn : List PathC → PathC → List String
  | [], _ => []
  | p :: l, d =>
    if p ≠ [] ∧ p.dropLast = d then p.getLastD "" :: dnamesIn l d
    else dnamesIn l d

def FS.lookupFile (fs : FS) (p : PathC) : Option FileData := lookupL fs.files p

/-- `os.path.isfile`. -/
def FS.isfile (fs : FS) (p : PathC) : Bool := (fs.lookupFile p).isSome

/-- `os.path.isdir`. -/
def FS.isdir (fs : FS) (p : PathC) : Bool := fs.dirs.contains p

/-- `os.path.exists`. -/
def FS.pexists (fs : FS) (p : PathC) : Bool := fs.isfile p || fs.isdir p

/-- Create or overwrite a file. -/
def FS.setFile (fs : FS) (p : PathC) (d : FileData) : FS :=
  { fs with files := (p, d) :: eraseKey fs.files p }

/-- `os.remove` (no-op if absent; the code catches the raise everywhere it
could matter). -/
def FS.removeFile (fs : FS) (p : PathC) : FS :=
  { fs with files := eraseKey fs.files p }

/-- `os.makedirs(d, exist_ok=True)`: raises on an uncreatable directory. -/
def FS.mkdirs (fs : FS) (d : PathC) : Except Unit FS :=
  if fs.uncreatable.contains d then .error ()
  else .ok { fs with dirs := if fs.dirs.contains d then fs.dirs else d :: fs.dirs }

/-- Names of the regular files directly inside directory `d`. -/
def FS.fileNamesIn (fs : FS) (d : PathC) : List String := namesIn fs.files d

/-- Names of the subdirectories directly inside directory `d`. -/
def FS.dirNamesIn (fs : FS) (d : PathC) : List String := dnamesIn fs.dirs d

/-- `os.scandir` listing every entry name (files and subdirectories);
raises if the directory is missing or inaccessible. -/
def FS.scandirNames (fs : FS) (d : PathC) : Except Unit (List String) :=
  if fs.inaccessible.contains d || !fs.isdir d then .error ()
  else .ok (fs.fileNamesIn d ++ fs.dirNamesIn d)

/-- `os.scandir` restricted to entries with `entry.is_file()`. -/
def FS.scandirFiles (fs : FS) (d : PathC) : Except Unit (List String) :=
  if fs.inaccessible.contains d || !fs.isdir d then .error ()
  else .ok (fs.fileNamesIn d)

/-- `os.path.getmtime`. -/
def FS.getmtime (fs : FS) (p : PathC) : Except Unit Nat :=
  match fs.lookupFile p with
  | some fd => .ok fd.mtime
  | none => .error ()

/-- `shutil.copy2` (metadata-preserving copy); its failure is caught at
every call site, so a failing copy leaves the filesystem unchanged. -/
def FS.copy2 (fs : FS) (src dst : PathC) : FS :=
  match fs.lookupFile src with
  | some fd => fs.setFile dst fd
  | none => fs

/-! ## `utils.py` -/

/-- `LOSSLESS_EXTENSIONS` from `utils.py`. -/
def LOSSLESS_EXTENSIONS : List String :=
  [".flac", ".alac", ".wav", ".ape", ".aiff", ".wv", ".tta", ".ogg", ".opus"]

/-- `LOSSY_EXTENSIONS` from `utils.py`. -/
def LOSSY_EXTENSIONS : List String := [".mp3", ".aac", ".m4a"]

/-- `AUDIO_EXTENSIONS = LOSSLESS_EXTENSIONS | LOSSY_EXTENSIONS | {".mp3"}`
(membership-wise, the union of the two lists). -/
def AUDIO_EXTENSIONS : List String := LOSSLESS_EXTENSIONS ++ LOSSY_EXTENSIONS

/-- `SIDECAR_EXTENSIONS` from `utils.py`. -/
def SIDECAR_EXTENSIONS : List String := [".lrc"]

/-- `nfc_path`: normalize every path component (`utils.py`).  The NFC
normalisation itself is the abstract parameter `nfc`. -/
def nfcPath (nfc : String → String) (p : PathC) : PathC := p.map nfc

/-- `is_mp3(path)`: the (lowered) suffix of the final component is ".mp3". -/
def is_mp3 (p : PathC) : Bool := strLower (pySuffix (basenameP p)) == ".mp3"

/-- `is_lossless(path)`. -/
def is_lossless (p : PathC) : Bool :=
  LOSSLESS_EXTENSIONS.contains (strLower (pySuffix (basenameP p)))

/-- A path has one of the lossy extensions (`LOSSY_EXTENSIONS` membership,
used to state the spec's notion of a "lossy source"). -/
def isLossyPath (p : PathC) : Bool :=
  LOSSY_EXTENSIONS.contains (strLower (pySuffix (basenameP p)))

/-- `is_audio_file(path)`: the path (re-normalised, as in the source) is an
existing regular file with a recognised audio extension. -/
def is_audio_file (nfc : String → String) (fs : FS) (p : PathC) : Bool :=
  let q := nfcPath nfc p
  fs.isfile q && AUDIO_EXTENSIONS.contains (strLower (pySuffix (basenameP q)))

/-- `appears_empty_dir(path)` from `utils.py`: true if the directory does
not exist, raises on listing, or has no entry whose name does not start
with ".". -/
def appears_empty_dir (fs : FS) (p : PathC) : Bool :=
  if !fs.isdir p then true
  else
    match fs.scandirNames p with
    | .error _ => true
    | .ok names => names.all fun n => strStarts n "."

/-- `get_output_filename(source_path, extension)` from `utils.py`. -/
def get_output_filename (nfc : String → String) (source_path : PathC) (extension : String) : String :=
  nfc (pyStem (basenameP source_path)) ++ extension

/-! ## `wait_for_stable` (`utils.py`)

Real time is discretised into polling ticks: one tick is one 0.2 s poll
interval, `size t` is the observed size at tick `t` (`none` when
`os.path.getsize` raises), and `minStable`/`timeout` are the corresponding
durations measured in ticks.  The loop body of the source reads the size,
resets the last-change time on a change, returns true once the size has
been unchanged for `minStable`, and gives up when `timeout` elapses. -/

/-- The polling loop of `wait_for_stable`; `fuel` is the number of ticks
left until the timeout, `t` the current tick, `ls` the last observed size,
`lc` the tick of the last observed change. -/
def wfsLoop (size : Nat → Option Nat) (minStable : Nat) :
    Nat → Nat → Nat → Nat → Bool
  | 0, _, _, _ => false
  | f + 1, t, ls, lc =>
    match size t with
    | none => false
    | some cur =>
      if cur ≠ ls then wfsLoop size minStable f (t + 1) cur t
      else if minStable ≤ t - lc then true
      else wfsLoop size minStable f (t + 1) ls lc

/-- `wait_for_stable(path, min_stable_secs, timeout)` in the tick model:
an initial size read (false on failure), then the polling loop. -/
def wait_for_stable (size : Nat → Option Nat) (minStable timeout : Nat) : Bool :=
  match size 0 with
  | none => false
  | some s0 => wfsLoop size minStable timeout 0 s0 0

/-- The tick of the most recent size change at or before tick `t` (0 when
the size never changed). -/
def lastChange (size : Nat → Option Nat) : Nat → Nat
  | 0 => 0
  | t + 1 => if size (t + 1) = size t then lastChange size t else t + 1

/-! ## `config.py` -/

/-- `CODEC_EXTENSIONS` from `config.py`. -/
def CODEC_EXTENSIONS : List (String × String) :=
  [("alac", ".m4a"), ("aac", ".m4a"), ("mp3", ".mp3"),
   ("opus", ".opus"), ("flac", ".flac"), ("wav", ".wav")]

/-- The codecs appearing in `CODEC_EXTENSIONS`. -/
def supportedCodecs : List String := CODEC_EXTENSIONS.map (·.1)

/-- An output target after `OutputConfig.__post_init__` ran (codec already
lowered and validated, bitrate defaulted, artwork flag adjusted). -/
structure OutputConfig where
  name : String
  codec : String
  path : PathC
  bitrate : String := ""
  include_artwork : Bool := true
deriving DecidableEq

/-- `OutputConfig.extension`: `CODEC_EXTENSIONS[self.codec]` (total here;
validated configurations always hold a supported codec). -/
def OutputConfig.extension (o : OutputConfig) : String :=
  ((CODEC_EXTENSIONS.find? fun e => e.1 = o.codec).map (·.2)).getD ""

/-- The engine-relevant fields of `Config` (`config.py`). -/
structure Config where
  source_path : PathC
  outputs : List OutputConfig
  force_reencode : Bool := false
  allow_initial_bulk_encode : Bool := true
deriving DecidableEq

/-- `Config.__post_init__` (`config.py`, lines 97-113): the validation run
on construction, returning the error message it would raise `ValueError`
with, or `none` on success.  Python's `len(set(xs))` is `xs.dedup.length`.
The check is pure: it reads no filesystem state. -/
def configValidationError (source_path : PathC) (outputs : List OutputConfig) : Option String :=
  if source_path = [] then some "source_path is required"
  else if outputs = [] then some "At least one output is required"
  else if (outputs.map (·.name)).dedup.length ≠ (outputs.map (·.name)).length then
    some "Duplicate output names detected"
  else if (outputs.map (·.path)).dedup.length ≠ (outputs.map (·.path)).length then
    some "Duplicate output paths detected"
  else none

/-! ## `encoder.py` -/

/-- `build_ffmpeg_command(source, dest, output_config)` (`encoder.py`):
the assembled argument vector, or the `ValueError` raised on an
unsupported codec. -/
def build_ffmpeg_command (nfc : String → String) (source dest : PathC)
    (o : OutputConfig) : Except Unit (List String) :=
  let src := renderPath (nfcPath nfc source)
  let dst := renderPath (nfcPath nfc dest)
  let art : List String := if o.include_artwork then ["-map", "0:v:0?"] else []
  let pre := ["ffmpeg", "-loglevel", "error", "-y", "-i", src, "-map", "0:a:0"]
    ++ art ++ ["-map_metadata", "0"]
  let cv : List String := if o.include_artwork then ["-c:v", "copy"] else []
  if o.codec = "alac" then
    .ok (pre ++ ["-c:a", "alac"] ++ cv ++ ["-movflags", "+faststart", "-f", "mp4", dst])
  else if o.codec = "aac" then
    .ok (pre ++ ["-c:a", "aac", "-b:a", o.bitrate] ++ cv
      ++ ["-movflags", "+faststart", "-f", "mp4", dst])
  else if o.codec = "mp3" then
    .ok (pre ++ ["-c:a", "libmp3lame", "-b:a", o.bitrate]
      ++ (if o.include_artwork then ["-c:v", "mjpeg"] else [])
      ++ ["-id3v2_version", "3", "-write_id3v2", "1", "-f", "mp3", dst])
  else if o.codec = "opus" then
    .ok (pre ++ ["-c:a", "libopus", "-b:a", o.bitrate, "-f", "opus", dst])
  else if o.codec = "flac" then
    .ok (pre ++ ["-c:a", "flac"] ++ cv ++ ["-f", "flac", dst])
  else if o.codec = "wav" then
    .ok (pre ++ ["-c:a", "pcm_s16le", "-f", "wav", dst])
  else .error ()

/-- `_remove_artwork_from_command(cmd)` (`encoder.py`): drop every
`-map 0:v:0?` pair, every `-c:v` flag with its value, and every
`-vf`-prefixed flag with its value. -/
def remove_artwork_from_command : List String → List String
  | [] => []
  | [a] =>
    if a = "-c:v" then []
    else if strStarts a "-vf" then []
    else [a]
  | a :: b :: rest =>
    if a = "-map" ∧ b = "0:v:0?" then remove_artwork_from_command rest
    else if a = "-c:v" then remove_artwork_from_command rest
    else if strStarts a "-vf" then remove_artwork_from_command rest
    else a :: remove_artwork_from_command (b :: rest)

/-- The artwork-stripping transformation as the spec and claim word it:
drop every `-map 0:v:0?` pair and every `-c:v` flag with its value.
Modelled from the spec: the claim's description of the retry command;
used for the refinement comparison with `remove_artwork_from_command`. -/
def stripArtworkClaim : List String → List String
  | [] => []
  | [a] => if a = "-c:v" then [] else [a]
  | a :: b :: rest =>
    if a = "-map" ∧ b = "0:v:0?" then stripArtworkClaim rest
    else if a = "-c:v" then stripArtworkClaim rest
    else a :: stripArtworkClaim (b :: rest)

/-- `artwork_error_hints` (`encoder.py` line 176): the fixed set of
image/video-decode error signatures. -/
def artworkErrorHints : List String :=
  ["vf#", "vist#", "VipsJpeg", "png", "mjpeg", "decode"]

/-- Python `cmd[-1] = v` (total here; theorems about the encoder assume a
non-empty command, as every command the code builds is). -/
def setLast (l : List String) (v : String) : List String := l.dropLast ++ [v]

/-- What one `subprocess.run(cmd)` invocation of ffmpeg produced: its
return code, its diagnostic output, and the (possibly partial) file it
wrote at the output path named by the command, if any. -/
structure RunResult where
  rc : Int
  stderr : String
  written : Option FileData
deriving DecidableEq

/-- The external-world oracle for the encoder: the outcome of running a
given argument vector, and whether the `os.replace` after that run fails. -/
structure EncOracle where
  run : List String → RunResult
  replaceFail : List String → Bool

/-- `os.replace(tmp, dest)` followed by the source's failure handling:
on success return code 0, on a raise remove the temp file and return 1
(`encoder.py` lines 161-168 and 187-194). -/
def replaceStep (O : EncOracle) (key : List String) (fs : FS) (tmp fd : PathC) : FS × Int :=
  if O.replaceFail key ∨ !fs.isfile tmp then (fs.removeFile tmp, 1)
  else
    match fs.lookupFile tmp with
    | some d => ((fs.removeFile tmp).setFile fd d, 0)
    | none => (fs.removeFile tmp, 1)

/-- Place the bytes a run wrote (if any) at the temp path. -/
def placeWritten (fs : FS) (tmp : PathC) : Option FileData → FS
  | some d => fs.setFile tmp d
  | none => fs

/-- `atomic_ffmpeg_encode(cmd, final_dest, retry_without_artwork)`
(`encoder.py` lines 124-199).  Returns the filesystem after the call and
either the return code together with the list of argument vectors actually
run (in order), or `.error` when `os.makedirs` raised.  The stale-temp
removal, the temp-targeted runs, the artwork-hint retry decision on the
lowered stderr, and the cleanup on every failure path follow the source
line by line. -/
def atomic_ffmpeg_encode (nfc : String → String) (O : EncOracle)
    (cmd : List String) (final_dest : PathC) (retry_without_artwork : Bool)
    (fs : FS) : FS × Except Unit (Int × List (List String)) :=
  let fd := nfcPath nfc final_dest
  match fs.mkdirs (dirnameP fd) with
  | .error _ => (fs, .error ())
  | .ok fs1 =>
    let tmp := addSuffix fd ".tmp__ff"
    let fs2 := fs1.removeFile tmp
    let cmd1 := setLast cmd (renderPath tmp)
    let r1 := O.run cmd1
    let fs3 := placeWritten fs2 tmp r1.written
    if r1.rc = 0 then
      let (fs4, rc) := replaceStep O cmd1 fs3 tmp fd
      (fs4, .ok (rc, [cmd1]))
    else
      let fs4 := fs3.removeFile tmp
      if retry_without_artwork
          ∧ artworkErrorHints.any (fun h => strContains (strLower r1.stderr) h) then
        let cmd2 := setLast (remove_artwork_from_command cmd1) (renderPath tmp)
        let r2 := O.run cmd2
        let fs5 := placeWritten fs4 tmp r2.written
        if r2.rc = 0 then
          let (fs6, rc) := replaceStep O cmd2 fs5 tmp fd
          (fs6, .ok (rc, [cmd1, cmd2]))
        else
          (fs5.removeFile tmp, .ok (r2.rc, [cmd1, cmd2]))
      else
        (fs4, .ok (r1.rc, [cmd1]))

/-! ## `sync.py` -/

/-- `safety_guard_active(config)` (`sync.py` lines 42-79; the throttled log
emission carries no engine state and is omitted). -/
def safety_guard_active (cfg : Config) (fs : FS) : Bool :=
  if appears_empty_dir fs cfg.source_path then true
  else if cfg.allow_initial_bulk_encode then false
  else cfg.outputs.any fun o => appears_empty_dir fs o.path

/-- `_has_lossless_source(source_path, config)` (`sync.py` lines 134-143):
some file (or directory — the source uses `os.path.exists`) named
`stem + ext` for a lossless `ext` exists beside the source and is not the
source itself. -/
def has_lossless_source (fs : FS) (source_path : PathC) : Bool :=
  let stem := pyStem (basenameP source_path)
  let dir := dirnameP source_path
  LOSSLESS_EXTENSIONS.any fun ext =>
    let p := joinP dir (stem ++ ext)
    fs.pexists p && p ≠ source_path

/-- The action `_process_outputs` resolves for one (source, target) pair. -/
inductive ResolvedAction where
  | skip
  | copyVerbatim (dest : PathC)
  | transcode (dest : PathC)
deriving DecidableEq

/-- The per-(source, target) branch of `_process_outputs` (`sync.py`
lines 156-176): an MP3 source paired with the ALAC target is skipped when
a lossless sibling with the same stem exists and is otherwise copied
verbatim under its original basename; every other pair is transcoded to
the NFC-normalised stem plus the target's extension. -/
def resolveAction (nfc : String → String) (fs : FS) (source_path : PathC)
    (o : OutputConfig) : ResolvedAction :=
  if is_mp3 source_path ∧ o.codec = "alac" then
    if has_lossless_source fs source_path then .skip
    else .copyVerbatim (nfcPath nfc (joinP o.path (basenameP source_path)))
  else
    .transcode (nfcPath nfc (joinP o.path (get_output_filename nfc source_path o.extension)))

/-- The effect of `_process_outputs` on one output target (`sync.py`
lines 155-186): dispatch on the resolved action; the copy branch creates
the output directory (which may raise) and copies unless the destination
exists and `force` is off; the transcode branch builds the command and
runs the atomic encode unless the destination exists and `force` is off.
A non-zero encode status is only logged. -/
def processOneOutput (nfc : String → String) (O : EncOracle) (source_path : PathC)
    (force : Bool) (o : OutputConfig) (fs : FS) : FS × Except Unit Unit :=
  match resolveAction nfc fs source_path o with
  | .skip => (fs, .ok ())
  | .copyVerbatim out_path =>
    if force ∨ !fs.pexists out_path then
      match fs.mkdirs o.path with
      | .error _ => (fs, .error ())
      | .ok fs1 => (fs1.copy2 source_path out_path, .ok ())
    else (fs, .ok ())
  | .transcode out_path =>
    if force ∨ !fs.pexists out_path then
      match build_ffmpeg_command nfc source_path out_path o with
      | .error _ => (fs, .error ())
      | .ok cmd =>
        match atomic_ffmpeg_encode nfc O cmd out_path true fs with
        | (fs1, .error _) => (fs1, .error ())
        | (fs1, .ok _) => (fs1, .ok ())
    else (fs, .ok ())

/-- The loop of `_process_outputs` (`sync.py` lines 151-186): the safety
guard is re-checked before each target and aborts the rest of the loop
when active; a raise from one target propagates. -/
def processOutputsLoop (nfc : String → String) (O : EncOracle) (cfg : Config)
    (source_path : PathC) (force : Bool) :
    List OutputConfig → FS → FS × Except Unit Unit
  | [], fs => (fs, .ok ())
  | o :: rest, fs =>
    if safety_guard_active cfg fs then (fs, .ok ())
    else
      match processOneOutput nfc O source_path force o fs with
      | (fs1, .error e) => (fs1, .error e)
      | (fs1, .ok _) => processOutputsLoop nfc O cfg source_path force rest fs1

/-- `_process_outputs(source_path, config, force)` (`sync.py` lines 146-187). -/
def process_outputs (nfc : String → String) (O : EncOracle) (source_path : PathC)
    (cfg : Config) (force : Bool) (fs : FS) : FS × Except Unit Unit :=
  processOutputsLoop nfc O cfg source_path force cfg.outputs fs

/-- The process-local mutable state `process_source_file` touches: the
filesystem and the in-progress set (`sync.py` line 34). -/
structure SyncState where
  fs : FS
  inProgress : List PathC
deriving DecidableEq

/-- The oracles `process_source_file` consults beyond the filesystem: the
encoder oracle and the (time-dependent) outcome of `wait_for_stable` for a
given path. -/
structure SyncOracle where
  enc : EncOracle
  stableOk : PathC → Bool

/-- `process_source_file(source_path, config, force, check_stable)`
(`sync.py` lines 82-131).  Returns the state after the call, the call's
outcome (`.error` when it raised), and — as ghost instrumentation — whether
the guarded body (`_process_outputs` onward) ran.  The source normalises
the path, rejects non-audio paths, returns under an active safety guard,
returns when the stability wait fails, skips paths already in progress,
and otherwise adds the path to the in-progress set, runs the body, and
discards the path again in a `finally`.  After `_process_outputs`
succeeds, the source reads `config.fetch_lyrics`; the `Config` dataclass
of `config.py` defines no such attribute, so that read raises
`AttributeError`, which the `finally` lets propagate. -/
def process_source_file (nfc : String → String) (O : SyncOracle)
    (source_path : PathC) (cfg : Config) (force check_stable : Bool)
    (st : SyncState) : SyncState × Except Unit Unit × Bool :=
  let sp := nfcPath nfc source_path
  if !is_audio_file nfc st.fs sp then (st, .ok (), false)
  else if safety_guard_active cfg st.fs then (st, .ok (), false)
  else if check_stable && !O.stableOk sp then (st, .ok (), false)
  else if st.inProgress.contains sp then (st, .ok (), false)
  else
    let (fs1, r) := process_outputs nfc O.enc sp cfg force st.fs
    let inProg := (sp :: st.inProgress).filter (· ≠ sp)
    match r with
    | .error e => (⟨fs1, inProg⟩, .error e, true)
    | .ok _ => (⟨fs1, inProg⟩, .error (), true)

/-- `os.path.exists` check followed by `os.remove` with its raise caught
(the deletion idiom of `delete_outputs` and `delete_sidecars`). -/
def removeIfExists (fs : FS) (p : PathC) : FS :=
  if fs.pexists p then fs.removeFile p else fs

/-- `delete_sidecars(source_path, config)` (`sync.py` lines 261-274). -/
def delete_sidecars (nfc : String → String) (source_path : PathC) (cfg : Config)
    (fs : FS) : FS :=
  let sp := nfcPath nfc source_path
  let stem := nfc (pyStem (basenameP sp))
  SIDECAR_EXTENSIONS.foldl
    (fun fs ext =>
      cfg.outputs.foldl
        (fun fs o => removeIfExists fs (nfcPath nfc (joinP o.path (stem ++ ext))))
        fs)
    fs

/-- The filenames `delete_outputs` targets in one output directory
(`sync.py` lines 204-218).  `_has_lossless_source` is consulted on the
filesystem as it stands when that target's turn comes. -/
def deleteNamesFor (nfc : String → String) (fs : FS) (sp : PathC)
    (o : OutputConfig) : List String :=
  let stem := nfc (pyStem (basenameP sp))
  let base := basenameP sp
  if is_mp3 sp then
    if o.codec = "alac" then [base]
    else if !has_lossless_source fs sp then [stem ++ o.extension]
    else []
  else [stem ++ o.extension]

/-- One target's deletions inside `delete_outputs` (`sync.py`
lines 204-227). -/
def deleteOutputsStep (nfc : String → String) (sp : PathC) (fs : FS)
    (o : OutputConfig) : FS :=
  (deleteNamesFor nfc fs sp o).foldl
    (fun fs n => removeIfExists fs (nfcPath nfc (joinP o.path n))) fs

/-- `delete_outputs(source_path, config)` (`sync.py` lines 189-230). -/
def delete_outputs (nfc : String → String) (source_path : PathC) (cfg : Config)
    (fs : FS) : FS :=
  let sp := nfcPath nfc source_path
  if safety_guard_active cfg fs then fs
  else delete_sidecars nfc sp cfg (cfg.outputs.foldl (deleteOutputsStep nfc sp) fs)

/-- `purge_all_outputs(config)` (`sync.py` lines 305-327): blocked by the
safety guard; otherwise every regular file in every output directory is
removed (raises from one directory are caught and the loop continues). -/
def purge_all_outputs (cfg : Config) (fs : FS) : FS :=
  if safety_guard_active cfg fs then fs
  else
    cfg.outputs.foldl
      (fun fs o =>
        match fs.mkdirs o.path with
        | .error _ => fs
        | .ok fs1 =>
          match fs1.scandirFiles o.path with
          | .error _ => fs1
          | .ok names => names.foldl (fun fs n => fs.removeFile (joinP o.path n)) fs1)
      fs

/-- The valid artifact extensions of one target during the orphan sweep
(`sync.py` lines 414-419): the ALAC directory may also hold copied MP3s. -/
def validExtensions (o : OutputConfig) : List String :=
  if o.codec = "alac" then [".m4a", ".mp3"] else [o.extension]

/-- Whether the orphan sweep deletes the entry named `n` of target `o`
(`sync.py` lines 427-437): an entry with a valid extension whose
NFC-normalised stem has no source, or a copied MP3 in the ALAC directory
whose stem now has a lossless source. -/
def orphanCond (nfc : String → String) (source_stems lossless_stems : List String)
    (o : OutputConfig) (n : String) : Bool :=
  (validExtensions o).any (fun e => strEnds n e)
  && (!source_stems.contains (nfc (pyStem n))
      || (o.codec = "alac" && strEnds n ".mp3"
          && lossless_stems.contains (nfc (pyStem n))))

/-- The audio-artifact sweep of `_cleanup_orphans` for one target
(`sync.py` lines 413-446). -/
def sweepOutput (nfc : String → String) (source_stems lossless_stems : List String)
    (o : OutputConfig) (fs : FS) : FS :=
  match fs.scandirFiles o.path with
  | .error _ => fs
  | .ok names =>
    names.foldl
      (fun fs n =>
        if orphanCond nfc source_stems lossless_stems o n then
          fs.removeFile (nfcPath nfc (joinP o.path n))
        else fs)
      fs

/-- The orphaned-sidecar sweep of `_cleanup_orphans` for one target
(`sync.py` lines 448-467). -/
def sweepSidecars (nfc : String → String) (source_stems : List String)
    (o : OutputConfig) (fs : FS) : FS :=
  match fs.scandirFiles o.path with
  | .error _ => fs
  | .ok names =>
    names.foldl
      (fun fs n =>
        if SIDECAR_EXTENSIONS.any (fun e => strEnds (strLower n) e)
            && !source_stems.contains (nfc (pyStem n)) then
          fs.removeFile (nfcPath nfc (joinP o.path n))
        else fs)
      fs

/-- The stems of the lossless source files, computed at the top of
`_cleanup_orphans` (`sync.py` lines 401-411; an unreadable source
directory yields the empty set). -/
def losslessStems (nfc : String → String) (cfg : Config) (fs : FS) : List String :=
  match fs.scandirFiles cfg.source_path with
  | .error _ => []
  | .ok names =>
    (names.filter fun n => LOSSLESS_EXTENSIONS.contains (strLower (pySuffix n))).map
      fun n => nfc (pyStem n)

/-- `_cleanup_orphans(config, source_stems)` (`sync.py` lines 399-467). -/
def cleanup_orphans (nfc : String → String) (cfg : Config)
    (source_stems : List String) (fs : FS) : FS :=
  let ls := losslessStems nfc cfg fs
  let fs1 := cfg.outputs.foldl (fun fs o => sweepOutput nfc source_stems ls o fs) fs
  cfg.outputs.foldl (fun fs o => sweepSidecars nfc source_stems o fs) fs1

/-! ## Basic lemmas about the filesystem model -/

theorem lookupL_eraseKey (l : List (PathC × FileData)) (p q : PathC) :
    lookupL (eraseKey l p) q = if q = p then none else lookupL l q := by
  induction l with
  | nil => simp [eraseKey, lookupL]
  | cons e l ih =>
    by_cases hep : e.1 = p
    · rw [eraseKey, if_pos hep, ih]
      by_cases h : q = p
      · simp [h]
      · have : ¬(e.1 = q) := fun hq => h (hq.symm.trans hep)
        simp [h, lookupL, this]
    · rw [eraseKey, if_neg hep]
      by_cases heq : e.1 = q
      · have h : ¬(q = p) := fun hq => hep (heq.trans hq)
        simp [lookupL, heq, h]
      · simp [lookupL, heq, ih]

theorem lookupFile_removeFile (fs : FS) (p q : PathC) :
    (fs.removeFile p).lookupFile q = if q = p then none else fs.lookupFile q := by
  simp [FS.removeFile, FS.lookupFile, lookupL_eraseKey]

theorem lookupFile_setFile (fs : FS) (p q : PathC) (d : FileData) :
    (fs.setFile p d).lookupFile q = if q = p then some d else fs.lookupFile q := by
  rw [FS.setFile, FS.lookupFile]
  show lookupL ((p, d) :: eraseKey fs.files p) q = _
  rw [lookupL]
  by_cases h : q = p
  · rw [if_pos h.symm, if_pos h]
  · rw [if_neg (fun hpq : p = q => h hpq.symm), if_neg h, lookupL_eraseKey, if_neg h]
    rfl

theorem isfile_removeFile (fs : FS) (p q : PathC) :
    (fs.removeFile p).isfile q = (q ≠ p && fs.isfile q) := by
  by_cases h : q = p <;> simp [FS.isfile, lookupFile_removeFile, h]

@[simp] theorem dirs_removeFile (fs : FS) (p : PathC) : (fs.removeFile p).dirs = fs.dirs := rfl

@[simp] theorem dirs_setFile (fs : FS) (p : PathC) (d : FileData) :
    (fs.setFile p d).dirs = fs.dirs := rfl

@[simp] theorem inaccessible_removeFile (fs : FS) (p : PathC) :
    (fs.removeFile p).inaccessible = fs.inaccessible := rfl

@[simp] theorem inaccessible_setFile (fs : FS) (p : PathC) (d : FileData) :
    (fs.setFile p d).inaccessible = fs.inaccessible := rfl

@[simp] theorem uncreatable_removeFile (fs : FS) (p : PathC) :
    (fs.removeFile p).uncreatable = fs.uncreatable := rfl

@[simp] theorem isdir_removeFile (fs : FS) (p q : PathC) :
    (fs.removeFile p).isdir q = fs.isdir q := rfl

@[simp] theorem isdir_setFile (fs : FS) (p q : PathC) (d : FileData) :
    (fs.setFile p d).isdir q = fs.isdir q := rfl

theorem namesIn_eraseKey (l : List (PathC × FileData)) (p : PathC) (d : PathC)
    (h : ¬(p ≠ [] ∧ p.dropLast = d)) :
    namesIn (eraseKey l p) d = namesIn l d := by
  induction l with
  | nil => rfl
  | cons e l ih =>
    by_cases hep : e.1 = p
    · have hnot : ¬(e.1 ≠ [] ∧ e.1.dropLast = d) := hep ▸ h
      rw [eraseKey, if_pos hep, ih, namesIn, if_neg hnot]
    · by_cases hin : e.1 ≠ [] ∧ e.1.dropLast = d
      · rw [eraseKey, if_neg hep, namesIn, if_pos hin, namesIn, if_pos hin, ih]
      · rw [eraseKey, if_neg hep, namesIn, if_neg hin, namesIn, if_neg hin, ih]

theorem fileNamesIn_removeFile (fs : FS) (p : PathC) (d : PathC)
    (h : ¬(p ≠ [] ∧ p.dropLast = d)) :
    (fs.removeFile p).fileNamesIn d = fs.fileNamesIn d := by
  simp [FS.fileNamesIn, FS.removeFile, namesIn_eraseKey _ _ _ h]

theorem scandirFiles_removeFile (fs : FS) (p : PathC) (d : PathC)
    (h : ¬(p ≠ [] ∧ p.dropLast = d)) :
    (fs.removeFile p).scandirFiles d = fs.scandirFiles d := by
  unfold FS.scandirFiles
  rw [inaccessible_removeFile, isdir_removeFile]
  split
  · rfl
  · rw [fileNamesIn_removeFile fs p d h]

theorem eq_dropLast_concat_getLastD (p : PathC) (h : p ≠ []) :
    p = p.dropLast ++ [p.getLastD ""] := by
  conv_lhs => rw [← List.dropLast_append_getLast h]
  rw [List.getLastD_eq_getLast?, List.getLast?_eq_getLast _ h]
  rfl

theorem mem_namesIn (l : List (PathC × FileData)) (d : PathC) (n : String) :
    n ∈ namesIn l d ↔ ∃ e ∈ l, e.1 = d ++ [n] := by
  induction l with
  | nil => simp [namesIn]
  | cons e l ih =>
    rw [namesIn]
    by_cases hin : e.1 ≠ [] ∧ e.1.dropLast = d
    · rw [if_pos hin]
      constructor
      · intro h
        rcases List.mem_cons.1 h with h | h
        · refine ⟨e, List.mem_cons_self e l, ?_⟩
          calc e.1 = e.1.dropLast ++ [e.1.getLastD ""] :=
                eq_dropLast_concat_getLastD e.1 hin.1
            _ = d ++ [n] := by rw [hin.2, ← h]
        · obtain ⟨e', he', hk⟩ := ih.1 h
          exact ⟨e', List.mem_cons_of_mem e he', hk⟩
      · rintro ⟨e', he', hk⟩
        rcases List.mem_cons.1 he' with rfl | hmem
        · have hlast : e'.1.getLastD "" = n := by rw [hk, List.getLastD_concat]
          exact hlast ▸ List.mem_cons_self _ _
        · exact List.mem_cons_of_mem _ (ih.2 ⟨e', hmem, hk⟩)
    · rw [if_neg hin, ih]
      constructor
      · rintro ⟨e', he', hk⟩
        exact ⟨e', List.mem_cons_of_mem e he', hk⟩
      · rintro ⟨e', he', hk⟩
        rcases List.mem_cons.1 he' with rfl | hmem
        · exact absurd ⟨by simp [hk], by rw [hk, List.dropLast_concat]⟩ hin
        · exact ⟨e', hmem, hk⟩

theorem lookupL_isSome_iff (l : List (PathC × FileData)) (p : PathC) :
    (lookupL l p).isSome = true ↔ ∃ e ∈ l, e.1 = p := by
  induction l with
  | nil => simp [lookupL]
  | cons e l ih =>
    by_cases hep : e.1 = p
    · simp [lookupL, hep]
    · rw [lookupL, if_neg hep, ih]
      constructor
      · rintro ⟨e', he', hk⟩
        exact ⟨e', List.mem_cons_of_mem _ he', hk⟩
      · rintro ⟨e', he', hk⟩
        rcases List.mem_cons.1 he' with rfl | hmem
        · exact absurd hk hep
        · exact ⟨e', hmem, hk⟩

theorem isfile_iff_mem_fileNamesIn (fs : FS) (d : PathC) (n : String) :
    fs.isfile (d ++ [n]) = true ↔ n ∈ fs.fileNamesIn d := by
  rw [FS.fileNamesIn, mem_namesIn, FS.isfile, FS.lookupFile, lookupL_isSome_iff]

theorem joinP_inj {d₁ d₂ : PathC} {n₁ n₂ : String}
    (h : d₁ ++ [n₁] = d₂ ++ [n₂]) : d₁ = d₂ ∧ n₁ = n₂ := by
  have hd := congrArg List.dropLast h
  rw [List.dropLast_concat, List.dropLast_concat] at hd
  have hn := congrArg (List.getLastD · "") h
  simp only [List.getLastD_concat] at hn
  exact ⟨hd, hn⟩

theorem dropLast_addSuffix (p : PathC) (suf : String) :
    (addSuffix p suf).dropLast = p.dropLast := by
  unfold addSuffix
  rw [List.dropLast_concat]

theorem addSuffix_ne (p : PathC) (suf : String) (h : suf ≠ "") :
    addSuffix p suf ≠ p := by
  intro heq
  rcases List.eq_nil_or_concat p with rfl | ⟨l, a, rfl⟩
  · exact absurd heq (by simp [addSuffix])
  · simp only [List.concat_eq_append] at heq
    unfold addSuffix at heq
    rw [List.dropLast_concat, List.getLastD_concat] at heq
    have hae := (joinP_inj heq).2
    have hlen := congrArg String.length hae
    rw [String.length_append] at hlen
    have hz : suf.length = 0 := by omega
    have hz' : suf.data.length = 0 := hz
    exact h (String.ext (List.length_eq_zero.mp hz'))

theorem dedup_length_eq_iff_nodup {α : Type} [DecidableEq α] (l : List α) :
    l.dedup.length = l.length ↔ l.Nodup := by
  constructor
  · intro h
    have hsub := List.dedup_sublist l
    have heq := hsub.eq_of_length h
    rw [← heq]
    exact List.nodup_dedup l
  · intro h
    rw [List.dedup_eq_self.mpr h]

/-! ## Claim theorems -/

/-- **C5.** The safety guard is active exactly when the source directory
appears empty, or the allow-bulk-empty-outputs setting is false and some
output directory appears empty (so an empty source always activates it,
whatever the configuration); and a directory appears empty exactly when it
does not exist, is inaccessible, or has no entry whose name does not start
with ".". -/
theorem C5_safety_guard_characterization (cfg : Config) (fs : FS) :
    (safety_guard_active cfg fs = true ↔
      (appears_empty_dir fs cfg.source_path = true ∨
        (cfg.allow_initial_bulk_encode = false ∧
          ∃ o ∈ cfg.outputs, appears_empty_dir fs o.path = true)))
    ∧ (∀ p : PathC, appears_empty_dir fs p = true ↔
        (fs.isdir p = false ∨ fs.inaccessible.contains p = true ∨
          ∀ n ∈ fs.fileNamesIn p ++ fs.dirNamesIn p, strStarts n "." = true)) := by
  constructor
  · unfold safety_guard_active
    by_cases hsrc : appears_empty_dir fs cfg.source_path
    · simp [hsrc]
    · by_cases hallow : cfg.allow_initial_bulk_encode
      · simp [hsrc, hallow]
      · simp [hsrc, hallow, List.any_eq_true]
  · intro p
    unfold appears_empty_dir FS.scandirNames
    by_cases hdir : fs.isdir p
    · by_cases hacc : p ∈ fs.inaccessible
      · simp [hdir, hacc]
      · simp [hdir, hacc, List.all_eq_true]
        constructor
        · rintro ⟨ha, hb⟩ n hn
          exact hn.elim (ha n) (hb n)
        · intro h
          exact ⟨fun n hn => h n (Or.inl hn), fun n hn => h n (Or.inr hn)⟩
    · simp [hdir]

/-- **C5 witness.** A concrete filesystem whose source directory does not
exist activates the guard even with `allow_initial_bulk_encode = true`. -/
theorem C5_safety_guard_characterization_witness :
    safety_guard_active
      ⟨["music"], [⟨"aac", "aac", ["out"], "256k", true⟩], false, true⟩
      ⟨[], [["out"]], [], []⟩ = true :=
  (C5_safety_guard_characterization
    ⟨["music"], [⟨"aac", "aac", ["out"], "256k", true⟩], false, true⟩
    ⟨[], [["out"]], [], []⟩).1.mpr (Or.inl (by decide))

/-- **C9.** `Config` construction fails exactly when the source path is
empty, the output list is empty, two outputs share a name, or two outputs
share a destination path; a configuration that constructs therefore has
pairwise-distinct target names and destination directories.  (The check is
a pure function of the fields: it touches no filesystem state.) -/
theorem C9_config_validation (src : PathC) (outputs : List OutputConfig) :
    (configValidationError src outputs ≠ none ↔
      (src = [] ∨ outputs = [] ∨
        ¬(outputs.map (·.name)).Nodup ∨ ¬(outputs.map (·.path)).Nodup))
    ∧ (configValidationError src outputs = none →
        outputs.Pairwise fun a b => a.name ≠ b.name ∧ a.path ≠ b.path) := by
  have hchar : configValidationError src outputs = none ↔
      (¬src = [] ∧ ¬outputs = [] ∧
        (outputs.map (·.name)).Nodup ∧ (outputs.map (·.path)).Nodup) := by
    unfold configValidationError
    split_ifs with h1 h2 h3 h4
    · simp [h1]
    · simp [h2]
    · refine iff_of_false (by simp) ?_
      rintro ⟨-, -, hn, -⟩
      exact h3 ((dedup_length_eq_iff_nodup _).mpr hn)
    · refine iff_of_false (by simp) ?_
      rintro ⟨-, -, -, hp⟩
      exact h4 ((dedup_length_eq_iff_nodup _).mpr hp)
    · exact iff_of_true rfl ⟨h1, h2,
        (dedup_length_eq_iff_nodup _).mp (not_ne_iff.mp h3),
        (dedup_length_eq_iff_nodup _).mp (not_ne_iff.mp h4)⟩
  constructor
  · rw [← not_iff_not]
    push_neg
    rw [hchar]
  · intro h
    obtain ⟨-, -, hn, hp⟩ := hchar.mp h
    have hn' : outputs.Pairwise fun a b => a.name ≠ b.name := by
      rw [List.Nodup, List.pairwise_map] at hn
      exact hn
    have hp' : outputs.Pairwise fun a b => a.path ≠ b.path := by
      rw [List.Nodup, List.pairwise_map] at hp
      exact hp
    exact hn'.and hp'

/-- **C9 witness.** A concrete duplicate-path configuration is rejected,
and a concrete valid two-target configuration yields pairwise-distinct
names and paths. -/
theorem C9_config_validation_witness :
    (configValidationError ["music"]
        [⟨"a", "aac", ["out"], "256k", true⟩, ⟨"b", "mp3", ["out"], "256k", true⟩] ≠ none)
    ∧ ([⟨"a", "aac", ["o1"], "256k", true⟩,
        (⟨"b", "mp3", ["o2"], "256k", true⟩ : OutputConfig)].Pairwise
          fun a b => a.name ≠ b.name ∧ a.path ≠ b.path) :=
  ⟨(C9_config_validation ["music"] _).1.mpr (Or.inr (Or.inr (Or.inr (by decide)))),
    (C9_config_validation ["music"] _).2 (by decide)⟩

/-- **C3 counterexample.** The claim as stated — that *every lossy* source
paired with the ALAC target resolves to a verbatim copy (or a skip when a
lossless sibling exists) — is false: the source `song.aac` is lossy, no
lossless sibling exists, yet the resolver transcodes it (the source code
special-cases only `.mp3` sources, via `is_mp3`). -/
theorem C3_counterexample :
    ¬ ∀ (nfc : String → String) (fs : FS) (sp : PathC) (o : OutputConfig),
        isLossyPath sp = true → o.codec = "alac" →
        resolveAction nfc fs sp o =
          if has_lossless_source fs sp then ResolvedAction.skip
          else ResolvedAction.copyVerbatim (nfcPath nfc (joinP o.path (basenameP sp))) := by
  intro h
  have hc := h id ⟨[], [], [], []⟩ ["src", "song.aac"]
    ⟨"alac", "alac", ["out"], "", true⟩ (by decide) rfl
  exact absurd hc (by decide)

/-- **C3 (amended).** For every MP3 source (extension `.mp3`; other lossy
extensions such as `.aac`/`.m4a` are *not* special-cased) and the ALAC
target, the resolved action is a verbatim copy keeping the source's
original filename, unless a lossless source with the same stem exists
beside it, in which case the action is a skip; every other
(source, target) pair resolves to a transcode to the NFC-normalised stem
plus the target codec's extension. -/
theorem C3_resolver_mapping (nfc : String → String) (fs : FS) (sp : PathC)
    (o : OutputConfig) :
    (is_mp3 sp = true → o.codec = "alac" →
      resolveAction nfc fs sp o =
        if has_lossless_source fs sp then ResolvedAction.skip
        else ResolvedAction.copyVerbatim (nfcPath nfc (joinP o.path (basenameP sp))))
    ∧ (¬(is_mp3 sp = true ∧ o.codec = "alac") →
      resolveAction nfc fs sp o =
        ResolvedAction.transcode
          (nfcPath nfc (joinP o.path (nfc (pyStem (basenameP sp)) ++ o.extension)))) := by
  constructor
  · intro h1 h2
    unfold resolveAction
    rw [if_pos ⟨h1, h2⟩]
  · intro h
    unfold resolveAction
    rw [if_neg fun hc => h ⟨hc.1, hc.2⟩]
    rfl

/-- **C3 witness.** Concrete instances of all three rows of the mapping:
an MP3 with no lossless sibling is copied verbatim to the ALAC target
under its own basename, an MP3 with a lossless sibling is skipped, and a
FLAC is transcoded to `stem + ".m4a"`. -/
theorem C3_resolver_mapping_witness :
    resolveAction id ⟨[], [], [], []⟩ ["src", "a.mp3"]
        ⟨"alac", "alac", ["out"], "", true⟩ =
      ResolvedAction.copyVerbatim ["out", "a.mp3"]
    ∧ resolveAction id ⟨[(["src", "a.flac"], {})], [], [], []⟩ ["src", "a.mp3"]
        ⟨"alac", "alac", ["out"], "", true⟩ = ResolvedAction.skip
    ∧ resolveAction id ⟨[], [], [], []⟩ ["src", "b.flac"]
        ⟨"alac", "alac", ["out"], "", true⟩ =
      ResolvedAction.transcode ["out", "b.m4a"] :=
  ⟨((C3_resolver_mapping id ⟨[], [], [], []⟩ ["src", "a.mp3"]
      ⟨"alac", "alac", ["out"], "", true⟩).1 (by decide) rfl).trans (by decide),
    ((C3_resolver_mapping id ⟨[(["src", "a.flac"], {})], [], [], []⟩ ["src", "a.mp3"]
      ⟨"alac", "alac", ["out"], "", true⟩).1 (by decide) rfl).trans (by decide),
    ((C3_resolver_mapping id ⟨[], [], [], []⟩ ["src", "b.flac"]
      ⟨"alac", "alac", ["out"], "", true⟩).2 (by decide)).trans (by decide)⟩

theorem mkdirs_ok_files {fs fs1 : FS} {d : PathC} (h : fs.mkdirs d = .ok fs1) :
    fs1.files = fs.files := by
  unfold FS.mkdirs at h
  split at h
  · exact absurd h (by simp)
  · cases h
    rfl

theorem placeWritten_lookup_ne (fs : FS) (tmp q : PathC) (w : Option FileData)
    (h : q ≠ tmp) : (placeWritten fs tmp w).lookupFile q = fs.lookupFile q := by
  cases w with
  | none => rfl
  | some d => rw [placeWritten, lookupFile_setFile, if_neg h]

theorem replaceStep_lookup_tmp (O : EncOracle) (k : List String) (fs fs' : FS)
    (tmp fd : PathC) (rc : Int) (h : fd ≠ tmp)
    (h0 : replaceStep O k fs tmp fd = (fs', rc)) :
    fs'.lookupFile tmp = none := by
  unfold replaceStep at h0
  split at h0
  · cases h0
    rw [lookupFile_removeFile, if_pos rfl]
  · split at h0
    · cases h0
      rw [lookupFile_setFile, if_neg (fun hq : tmp = fd => h hq.symm),
        lookupFile_removeFile, if_pos rfl]
    · cases h0
      rw [lookupFile_removeFile, if_pos rfl]

theorem replaceStep_zero (O : EncOracle) (k : List String) (fs fs' : FS)
    (tmp fd : PathC) (rc : Int) (_hne : fd ≠ tmp)
    (h0 : replaceStep O k fs tmp fd = (fs', rc)) (hrc : rc = 0) :
    ∃ d, fs.lookupFile tmp = some d ∧ fs'.lookupFile fd = some d := by
  unfold replaceStep at h0
  split at h0
  · cases h0
    cases hrc
  · split at h0
    next d hd =>
      cases h0
      exact ⟨d, hd, by rw [lookupFile_setFile, if_pos rfl]⟩
    · cases h0
      cases hrc

theorem replaceStep_nonzero (O : EncOracle) (k : List String) (fs fs' : FS)
    (tmp fd : PathC) (rc : Int) (hne : fd ≠ tmp)
    (h0 : replaceStep O k fs tmp fd = (fs', rc)) (hrc : rc ≠ 0) :
    fs'.lookupFile fd = fs.lookupFile fd := by
  unfold replaceStep at h0
  split at h0
  · cases h0
    rw [lookupFile_removeFile, if_neg hne]
  · split at h0
    · cases h0
      exact absurd rfl hrc
    · cases h0
      rw [lookupFile_removeFile, if_neg hne]

theorem getLastD_setLast (l : List String) (v : String) :
    (setLast l v).getLastD "" = v := by
  rw [setLast, List.getLastD_concat]

/-- **C1.** The atomic encode targets the reserved temp path (destination
plus `.tmp__ff`, in the destination's directory) in every external run;
when it returns normally the temp file is gone, a failing status leaves
the destination exactly as it was, and a zero status means the destination
now holds precisely the bytes a succeeding run wrote; a raise from the
directory-creation step leaves the filesystem untouched. -/
theorem C1_atomic_encode_atomicity (nfc : String → String) (O : EncOracle)
    (cmd : List String) (final_dest : PathC) (retry : Bool) (fs fs' : FS)
    (res : Except Unit (Int × List (List String)))
    (_hcmd : cmd ≠ [])
    (heq : atomic_ffmpeg_encode nfc O cmd final_dest retry fs = (fs', res)) :
    (∀ u, res = .error u → fs' = fs)
    ∧ ∀ rc tr, res = .ok (rc, tr) →
        dirnameP (addSuffix (nfcPath nfc final_dest) ".tmp__ff")
            = dirnameP (nfcPath nfc final_dest)
        ∧ (∀ c ∈ tr, c.getLastD ""
            = renderPath (addSuffix (nfcPath nfc final_dest) ".tmp__ff"))
        ∧ fs'.lookupFile (addSuffix (nfcPath nfc final_dest) ".tmp__ff") = none
        ∧ (rc ≠ 0 → fs'.lookupFile (nfcPath nfc final_dest)
            = fs.lookupFile (nfcPath nfc final_dest))
        ∧ (rc = 0 → ∃ c ∈ tr, (O.run c).rc = 0
            ∧ fs'.lookupFile (nfcPath nfc final_dest) = (O.run c).written
            ∧ ((O.run c).written).isSome = true) := by
  classical
  have hne : nfcPath nfc final_dest ≠ addSuffix (nfcPath nfc final_dest) ".tmp__ff" :=
    fun h => addSuffix_ne (nfcPath nfc final_dest) ".tmp__ff" (by decide) h.symm
  unfold atomic_ffmpeg_encode at heq
  dsimp only at heq
  cases hmk : fs.mkdirs (dirnameP (nfcPath nfc final_dest)) with
  | error u =>
    rw [hmk] at heq
    dsimp only at heq
    injection heq with h_fs h_res
    subst h_fs
    subst h_res
    exact ⟨(fun _ _ => rfl), (fun rc tr h => nomatch h)⟩
  | ok fs1 =>
    rw [hmk] at heq
    dsimp only at heq
    have hfiles : fs1.files = fs.files := mkdirs_ok_files hmk
    set fd := nfcPath nfc final_dest with hfd
    set tmp := addSuffix fd ".tmp__ff" with htmp
    set cmd1 := setLast cmd (renderPath tmp) with hcmd1
    set fs2 := fs1.removeFile tmp with hfs2
    set fs3 := placeWritten fs2 tmp (O.run cmd1).written with hfs3
    have hlk2 : fs2.lookupFile fd = fs.lookupFile fd := by
      rw [hfs2, lookupFile_removeFile, if_neg hne, FS.lookupFile, hfiles]; rfl
    have hlk3 : fs3.lookupFile fd = fs.lookupFile fd := by
      rw [hfs3, placeWritten_lookup_ne _ _ _ _ hne, hlk2]
    have htmp2 : fs2.lookupFile tmp = none := by
      rw [hfs2, lookupFile_removeFile, if_pos rfl]
    by_cases h1 : (O.run cmd1).rc = 0
    · rw [if_pos h1] at heq
      rcases hrep : replaceStep O cmd1 fs3 tmp fd with ⟨fs4, rc4⟩
      rw [hrep] at heq
      dsimp only at heq
      injection heq with h_fs h_res
      subst h_fs
      subst h_res
      refine ⟨(fun u h => nomatch h), fun rc tr h => ?_⟩
      injection h with h
      injection h with h_rc h_tr
      subst h_rc h_tr
      refine ⟨dropLast_addSuffix fd ".tmp__ff", ?_, ?_, ?_, ?_⟩
      · intro c hc
        rcases List.mem_singleton.1 hc with rfl
        exact getLastD_setLast cmd (renderPath tmp)
      · exact replaceStep_lookup_tmp O cmd1 fs3 fs4 tmp fd rc4 hne hrep
      · intro hrc
        rw [replaceStep_nonzero O cmd1 fs3 fs4 tmp fd rc4 hne hrep hrc, hlk3]
      · intro hrc
        obtain ⟨d, hd, hfd'⟩ := replaceStep_zero O cmd1 fs3 fs4 tmp fd rc4 hne hrep hrc
        refine ⟨cmd1, List.mem_singleton.2 rfl, h1, ?_, ?_⟩
        · rw [hfd']
          rw [hfs3] at hd
          cases hw : (O.run cmd1).written with
          | none =>
            rw [hw] at hd
            rw [placeWritten] at hd
            rw [htmp2] at hd
            cases hd
          | some d' =>
            rw [hw, placeWritten, lookupFile_setFile, if_pos rfl] at hd
            cases hd
            rfl
        · rw [hfs3] at hd
          cases hw : (O.run cmd1).written with
          | none =>
            rw [hw] at hd
            rw [placeWritten] at hd
            rw [htmp2] at hd
            cases hd
          | some d' => rfl
    · rw [if_neg h1] at heq
      set fs4 := fs3.removeFile tmp with hfs4
      have hlk4 : fs4.lookupFile fd = fs.lookupFile fd := by
        rw [hfs4, lookupFile_removeFile, if_neg hne, hlk3]
      have htmp4 : fs4.lookupFile tmp = none := by
        rw [hfs4, lookupFile_removeFile, if_pos rfl]
      by_cases h2 : retry = true ∧ (artworkErrorHints.any
          fun h => strContains (strLower (O.run cmd1).stderr) h) = true
      · rw [if_pos h2] at heq
        set cmd2 := setLast (remove_artwork_from_command cmd1) (renderPath tmp) with hcmd2
        set fs5 := placeWritten fs4 tmp (O.run cmd2).written with hfs5
        have hlk5 : fs5.lookupFile fd = fs.lookupFile fd := by
          rw [hfs5, placeWritten_lookup_ne _ _ _ _ hne, hlk4]
        by_cases h3 : (O.run cmd2).rc = 0
        · rw [if_pos h3] at heq
          rcases hrep : replaceStep O cmd2 fs5 tmp fd with ⟨fs6, rc6⟩
          rw [hrep] at heq
          dsimp only at heq
          injection heq with h_fs h_res
          subst h_fs
          subst h_res
          refine ⟨(fun u h => nomatch h), fun rc tr h => ?_⟩
          injection h with h
          injection h with h_rc h_tr
          subst h_rc h_tr
          refine ⟨dropLast_addSuffix fd ".tmp__ff", ?_, ?_, ?_, ?_⟩
          · intro c hc
            rcases List.mem_cons.1 hc with rfl | hc
            · exact getLastD_setLast cmd (renderPath tmp)
            · rcases List.mem_singleton.1 hc with rfl
              exact getLastD_setLast _ (renderPath tmp)
          · exact replaceStep_lookup_tmp O cmd2 fs5 fs6 tmp fd rc6 hne hrep
          · intro hrc
            rw [replaceStep_nonzero O cmd2 fs5 fs6 tmp fd rc6 hne hrep hrc, hlk5]
          · intro hrc
            obtain ⟨d, hd, hfd'⟩ := replaceStep_zero O cmd2 fs5 fs6 tmp fd rc6 hne hrep hrc
            refine ⟨cmd2, List.mem_cons_of_mem _ (List.mem_singleton.2 rfl), h3, ?_, ?_⟩
            · rw [hfd']
              rw [hfs5] at hd
              cases hw : (O.run cmd2).written with
              | none =>
                rw [hw] at hd
                rw [placeWritten] at hd
                rw [htmp4] at hd
                cases hd
              | some d' =>
                rw [hw, placeWritten, lookupFile_setFile, if_pos rfl] at hd
                cases hd
                rfl
            · rw [hfs5] at hd
              cases hw : (O.run cmd2).written with
              | none =>
                rw [hw] at hd
                rw [placeWritten] at hd
                rw [htmp4] at hd
                cases hd
              | some d' => rfl
        · rw [if_neg h3] at heq
          injection heq with h_fs h_res
          subst h_fs
          subst h_res
          refine ⟨(fun u h => nomatch h), fun rc tr h => ?_⟩
          injection h with h
          injection h with h_rc h_tr
          subst h_rc h_tr
          refine ⟨dropLast_addSuffix fd ".tmp__ff", ?_, ?_, ?_, ?_⟩
          · intro c hc
            rcases List.mem_cons.1 hc with rfl | hc
            · exact getLastD_setLast cmd (renderPath tmp)
            · rcases List.mem_singleton.1 hc with rfl
              exact getLastD_setLast _ (renderPath tmp)
          · rw [lookupFile_removeFile, if_pos rfl]
          · intro _
            rw [lookupFile_removeFile, if_neg hne, hlk5]
          · intro hrc
            exact absurd hrc h3
      · rw [if_neg h2] at heq
        injection heq with h_fs h_res
        subst h_fs
        subst h_res
        refine ⟨(fun u h => nomatch h), fun rc tr h => ?_⟩
        injection h with h
        injection h with h_rc h_tr
        subst h_rc h_tr
        refine ⟨dropLast_addSuffix fd ".tmp__ff", ?_, htmp4, ?_, ?_⟩
        · intro c hc
          rcases List.mem_singleton.1 hc with rfl
          exact getLastD_setLast cmd (renderPath tmp)
        · intro _
          exact hlk4
        · intro hrc
          exact absurd hrc h1

/-- **C1 witness.** A concrete failing encode: the run fails with status 1,
the destination (previously present) is unchanged and the temp file is
gone; the run targeted `out/song.m4a.tmp__ff`. -/
theorem C1_atomic_encode_atomicity_witness :
    (atomic_ffmpeg_encode id
        ⟨fun _ => ⟨1, "boom", some ⟨"partial", 0⟩⟩, fun _ => false⟩
        ["ffmpeg", "out/song.m4a"] ["out", "song.m4a"] true
        ⟨[(["out", "song.m4a"], ⟨"old", 7⟩)], [["out"]], [], []⟩).1.lookupFile
        ["out", "song.m4a"] = some ⟨"old", 7⟩
    ∧ (atomic_ffmpeg_encode id
        ⟨fun _ => ⟨1, "boom", some ⟨"partial", 0⟩⟩, fun _ => false⟩
        ["ffmpeg", "out/song.m4a"] ["out", "song.m4a"] true
        ⟨[(["out", "song.m4a"], ⟨"old", 7⟩)], [["out"]], [], []⟩).1.lookupFile
        ["out", "song.m4a.tmp__ff"] = none := by
  have h := (C1_atomic_encode_atomicity id
      ⟨fun _ => ⟨1, "boom", some ⟨"partial", 0⟩⟩, fun _ => false⟩
      ["ffmpeg", "out/song.m4a"] ["out", "song.m4a"] true
      ⟨[(["out", "song.m4a"], ⟨"old", 7⟩)], [["out"]], [], []⟩
      (atomic_ffmpeg_encode id
        ⟨fun _ => ⟨1, "boom", some ⟨"partial", 0⟩⟩, fun _ => false⟩
        ["ffmpeg", "out/song.m4a"] ["out", "song.m4a"] true
        ⟨[(["out", "song.m4a"], ⟨"old", 7⟩)], [["out"]], [], []⟩).1
      (atomic_ffmpeg_encode id
        ⟨fun _ => ⟨1, "boom", some ⟨"partial", 0⟩⟩, fun _ => false⟩
        ["ffmpeg", "out/song.m4a"] ["out", "song.m4a"] true
        ⟨[(["out", "song.m4a"], ⟨"old", 7⟩)], [["out"]], [], []⟩).2
      (by decide) rfl).2
      1 [setLast ["ffmpeg", "out/song.m4a"]
          (renderPath (addSuffix (nfcPath id ["out", "song.m4a"]) ".tmp__ff"))]
      rfl
  obtain ⟨-, -, htmp, hfail, -⟩ := h
  constructor
  · have e : nfcPath id ["out", "song.m4a"] = ["out", "song.m4a"] := by decide
    rw [e] at hfail
    exact (hfail (by decide)).trans (by decide)
  · have e : addSuffix (nfcPath id ["out", "song.m4a"]) ".tmp__ff"
        = ["out", "song.m4a.tmp__ff"] := by decide
    rw [e] at htmp
    exact htmp

/-- The temp path the atomic encode writes to. -/
def tmpPath (nfc : String → String) (final_dest : PathC) : PathC :=
  addSuffix (nfcPath nfc final_dest) ".tmp__ff"

/-- The first argument vector the atomic encode runs: the caller's command
with the last element replaced by the temp path. -/
def firstCmd (nfc : String → String) (cmd : List String) (final_dest : PathC) :
    List String :=
  setLast cmd (renderPath (tmpPath nfc final_dest))

/-- The argument vector of the artwork-stripped retry. -/
def retryCmd (nfc : String → String) (cmd : List String) (final_dest : PathC) :
    List String :=
  setLast (remove_artwork_from_command (firstCmd nfc cmd final_dest))
    (renderPath (tmpPath nfc final_dest))

/-- The retry condition of `atomic_ffmpeg_encode`: some artwork-error
signature occurs in the *lowered* diagnostic output (`encoder.py`
line 177). -/
def hintMatched (s : String) : Bool :=
  artworkErrorHints.any fun h => strContains (strLower s) h

/-- On commands free of `-vf`-prefixed options (every command
`build_ffmpeg_command` produces is), the source's artwork stripping is
exactly the claim's: drop the `-map 0:v:0?` pair and the `-c:v` flag with
its value. -/
theorem removeArtwork_eq_stripClaim : ∀ (l : List String),
    (∀ x ∈ l, strStarts x "-vf" = false) →
    remove_artwork_from_command l = stripArtworkClaim l
  | [], _ => rfl
  | [a], h => by
    have hvf := h a (List.mem_singleton.2 rfl)
    rw [remove_artwork_from_command, stripArtworkClaim]
    by_cases hc : a = "-c:v"
    · rw [if_pos hc, if_pos hc]
    · rw [if_neg hc, if_neg hc, if_neg (by simp [hvf])]
  | a :: b :: rest, h => by
    have ha := h a (by simp)
    rw [remove_artwork_from_command, stripArtworkClaim]
    by_cases hm : a = "-map" ∧ b = "0:v:0?"
    · rw [if_pos hm, if_pos hm]
      exact removeArtwork_eq_stripClaim rest fun x hx => h x (by simp [hx])
    · rw [if_neg hm, if_neg hm]
      by_cases hc : a = "-c:v"
      · rw [if_pos hc, if_pos hc]
        exact removeArtwork_eq_stripClaim rest fun x hx => h x (by simp [hx])
      · rw [if_neg hc, if_neg hc, if_neg (by simp [ha])]
        exact congrArg (a :: ·)
          (removeArtwork_eq_stripClaim (b :: rest) fun x hx => h x (by simp [hx]))

/-- **C6 counterexample.** The claim as stated — the retry happens iff
retry is enabled and the diagnostic output contains one of the fixed
signatures — is false: with diagnostic output `"VipsJpeg"` (which contains
the signature `"VipsJpeg"` verbatim) no retry happens, because the code
matches the signatures against the *lowered* output `"vipsjpeg"` and the
mixed-case signature can never occur in a lowered string. -/
theorem C6_counterexample :
    ¬ ∀ (nfc : String → String) (O : EncOracle) (cmd : List String)
        (final_dest : PathC) (retry : Bool) (fs fs' : FS)
        (res : Except Unit (Int × List (List String))),
        cmd ≠ [] →
        atomic_ffmpeg_encode nfc O cmd final_dest retry fs = (fs', res) →
        ∀ rc tr, res = .ok (rc, tr) →
          (O.run (firstCmd nfc cmd final_dest)).rc ≠ 0 →
          (tr = [firstCmd nfc cmd final_dest, retryCmd nfc cmd final_dest] ↔
            (retry = true ∧ (artworkErrorHints.any
              fun h => strContains (O.run (firstCmd nfc cmd final_dest)).stderr h) = true)) := by
  intro h
  have hiff := h id
    ⟨fun c => if c = firstCmd id ["ffmpeg", "out/a.m4a"] ["out", "a.m4a"]
        then ⟨1, "VipsJpeg", none⟩ else ⟨0, "", some {}⟩, fun _ => false⟩
    ["ffmpeg", "out/a.m4a"] ["out", "a.m4a"] true ⟨[], [["out"]], [], []⟩
    (atomic_ffmpeg_encode id
      ⟨fun c => if c = firstCmd id ["ffmpeg", "out/a.m4a"] ["out", "a.m4a"]
          then ⟨1, "VipsJpeg", none⟩ else ⟨0, "", some {}⟩, fun _ => false⟩
      ["ffmpeg", "out/a.m4a"] ["out", "a.m4a"] true ⟨[], [["out"]], [], []⟩).1
    (atomic_ffmpeg_encode id
      ⟨fun c => if c = firstCmd id ["ffmpeg", "out/a.m4a"] ["out", "a.m4a"]
          then ⟨1, "VipsJpeg", none⟩ else ⟨0, "", some {}⟩, fun _ => false⟩
      ["ffmpeg", "out/a.m4a"] ["out", "a.m4a"] true ⟨[], [["out"]], [], []⟩).2
    (by decide) rfl 1 [firstCmd id ["ffmpeg", "out/a.m4a"] ["out", "a.m4a"]]
    rfl (by decide)
  have htr := hiff.mpr ⟨rfl, by decide⟩
  exact absurd htr (by decide)

/-- **C6 (amended).** When the first encode run fails, a single retry with
the artwork options stripped happens iff retry is enabled and the
*lowered* diagnostic output contains one of the fixed signatures (so the
mixed-case signature `"VipsJpeg"` never matches, and an upper-case
occurrence such as `"PNG"` does); at most two runs ever happen; when no
retry fires the first failing status is returned, and when the retry also
fails its failing status is returned with no further run.  On commands
without `-vf`-prefixed options, the stripping removes exactly the
`-map 0:v:0?` pair and the `-c:v` flag with its value. -/
theorem C6_artwork_retry_policy (nfc : String → String) (O : EncOracle)
    (cmd : List String) (final_dest : PathC) (retry : Bool) (fs fs' : FS)
    (res : Except Unit (Int × List (List String)))
    (_hcmd : cmd ≠ [])
    (heq : atomic_ffmpeg_encode nfc O cmd final_dest retry fs = (fs', res)) :
    (∀ rc tr, res = .ok (rc, tr) →
      tr.length ≤ 2
      ∧ ((O.run (firstCmd nfc cmd final_dest)).rc ≠ 0 →
          ((tr = [firstCmd nfc cmd final_dest, retryCmd nfc cmd final_dest] ↔
              (retry = true
                ∧ hintMatched (O.run (firstCmd nfc cmd final_dest)).stderr = true))
            ∧ (¬(retry = true
                ∧ hintMatched (O.run (firstCmd nfc cmd final_dest)).stderr = true) →
                tr = [firstCmd nfc cmd final_dest]
                ∧ rc = (O.run (firstCmd nfc cmd final_dest)).rc)
            ∧ ((retry = true
                ∧ hintMatched (O.run (firstCmd nfc cmd final_dest)).stderr = true)
                → (O.run (retryCmd nfc cmd final_dest)).rc ≠ 0 →
                rc = (O.run (retryCmd nfc cmd final_dest)).rc ∧ rc ≠ 0
                ∧ tr = [firstCmd nfc cmd final_dest, retryCmd nfc cmd final_dest]))))
    ∧ ((∀ x ∈ firstCmd nfc cmd final_dest, strStarts x "-vf" = false) →
        remove_artwork_from_command (firstCmd nfc cmd final_dest)
          = stripArtworkClaim (firstCmd nfc cmd final_dest)) := by
  classical
  refine ⟨?_, fun hvf => removeArtwork_eq_stripClaim _ hvf⟩
  intro rc tr h
  unfold atomic_ffmpeg_encode at heq
  dsimp only at heq
  cases hmk : fs.mkdirs (dirnameP (nfcPath nfc final_dest)) with
  | error u =>
    rw [hmk] at heq
    dsimp only at heq
    injection heq with h_fs h_res
    rw [← h_res] at h
    exact nomatch h
  | ok fs1 =>
    rw [hmk] at heq
    dsimp only at heq
    have hc1 : setLast cmd (renderPath (addSuffix (nfcPath nfc final_dest) ".tmp__ff"))
        = firstCmd nfc cmd final_dest := rfl
    rw [hc1] at heq
    by_cases h1 : (O.run (firstCmd nfc cmd final_dest)).rc = 0
    · rw [if_pos h1] at heq
      rcases hrep : replaceStep O (firstCmd nfc cmd final_dest)
          (placeWritten (fs1.removeFile (addSuffix (nfcPath nfc final_dest) ".tmp__ff"))
            (addSuffix (nfcPath nfc final_dest) ".tmp__ff")
            (O.run (firstCmd nfc cmd final_dest)).written)
          (addSuffix (nfcPath nfc final_dest) ".tmp__ff") (nfcPath nfc final_dest)
        with ⟨fs4, rc4⟩
      rw [hrep] at heq
      dsimp only at heq
      injection heq with h_fs h_res
      rw [← h_res] at h
      injection h with h
      injection h with h_rc h_tr
      subst h_rc h_tr
      exact ⟨by simp, fun hh => absurd h1 hh⟩
    · rw [if_neg h1] at heq
      by_cases h2 : retry = true ∧ (artworkErrorHints.any
          fun hh => strContains (strLower (O.run (firstCmd nfc cmd final_dest)).stderr) hh) = true
      · rw [if_pos h2] at heq
        have hc2 : setLast (remove_artwork_from_command (firstCmd nfc cmd final_dest))
            (renderPath (addSuffix (nfcPath nfc final_dest) ".tmp__ff"))
            = retryCmd nfc cmd final_dest := rfl
        rw [hc2] at heq
        have h2' : retry = true
            ∧ hintMatched (O.run (firstCmd nfc cmd final_dest)).stderr = true := h2
        by_cases h3 : (O.run (retryCmd nfc cmd final_dest)).rc = 0
        · rw [if_pos h3] at heq
          rcases hrep : replaceStep O (retryCmd nfc cmd final_dest)
              (placeWritten
                ((placeWritten (fs1.removeFile (addSuffix (nfcPath nfc final_dest) ".tmp__ff"))
                  (addSuffix (nfcPath nfc final_dest) ".tmp__ff")
                  (O.run (firstCmd nfc cmd final_dest)).written).removeFile
                    (addSuffix (nfcPath nfc final_dest) ".tmp__ff"))
                (addSuffix (nfcPath nfc final_dest) ".tmp__ff")
                (O.run (retryCmd nfc cmd final_dest)).written)
              (addSuffix (nfcPath nfc final_dest) ".tmp__ff") (nfcPath nfc final_dest)
            with ⟨fs6, rc6⟩
          rw [hrep] at heq
          dsimp only at heq
          injection heq with h_fs h_res
          rw [← h_res] at h
          injection h with h
          injection h with h_rc h_tr
          subst h_rc h_tr
          refine ⟨by simp, fun _ => ⟨iff_of_true rfl h2', fun hn => absurd h2' hn,
            fun _ hr3 => absurd h3 hr3⟩⟩
        · rw [if_neg h3] at heq
          injection heq with h_fs h_res
          rw [← h_res] at h
          injection h with h
          injection h with h_rc h_tr
          subst h_rc h_tr
          refine ⟨by simp, fun _ => ⟨iff_of_true rfl h2', fun hn => absurd h2' hn,
            fun _ _ => ⟨rfl, h3, rfl⟩⟩⟩
      · rw [if_neg h2] at heq
        injection heq with h_fs h_res
        rw [← h_res] at h
        injection h with h
        injection h with h_rc h_tr
        subst h_rc h_tr
        have h2' : ¬(retry = true
            ∧ hintMatched (O.run (firstCmd nfc cmd final_dest)).stderr = true) := h2
        refine ⟨by simp, fun _ => ⟨iff_of_false (by simp) h2', fun _ => ⟨rfl, rfl⟩,
          fun hh _ => absurd hh h2'⟩⟩

/-- **C6 witness.** A concrete failing run whose stderr mentions
`png`: exactly one retry with the artwork options stripped happens, and
when the retry fails too its status is returned. -/
theorem C6_artwork_retry_policy_witness :
    (atomic_ffmpeg_encode id
        ⟨fun c => if c = firstCmd id ["ffmpeg", "-map", "0:v:0?", "-c:v", "copy", "out/a.m4a"]
            ["out", "a.m4a"] then ⟨1, "png decode error", none⟩ else ⟨2, "still bad", none⟩,
          fun _ => false⟩
        ["ffmpeg", "-map", "0:v:0?", "-c:v", "copy", "out/a.m4a"] ["out", "a.m4a"] true
        ⟨[], [["out"]], [], []⟩).2
      = .ok (2, [firstCmd id ["ffmpeg", "-map", "0:v:0?", "-c:v", "copy", "out/a.m4a"] ["out", "a.m4a"],
          retryCmd id ["ffmpeg", "-map", "0:v:0?", "-c:v", "copy", "out/a.m4a"] ["out", "a.m4a"]])
    ∧ retryCmd id ["ffmpeg", "-map", "0:v:0?", "-c:v", "copy", "out/a.m4a"] ["out", "a.m4a"]
      = ["ffmpeg", "out/a.m4a.tmp__ff"] := by
  constructor
  · have h := (C6_artwork_retry_policy id
      ⟨fun c => if c = firstCmd id ["ffmpeg", "-map", "0:v:0?", "-c:v", "copy", "out/a.m4a"]
          ["out", "a.m4a"] then ⟨1, "png decode error", none⟩ else ⟨2, "still bad", none⟩,
        fun _ => false⟩
      ["ffmpeg", "-map", "0:v:0?", "-c:v", "copy", "out/a.m4a"] ["out", "a.m4a"] true
      ⟨[], [["out"]], [], []⟩
      (atomic_ffmpeg_encode id
        ⟨fun c => if c = firstCmd id ["ffmpeg", "-map", "0:v:0?", "-c:v", "copy", "out/a.m4a"]
            ["out", "a.m4a"] then ⟨1, "png decode error", none⟩ else ⟨2, "still bad", none⟩,
          fun _ => false⟩
        ["ffmpeg", "-map", "0:v:0?", "-c:v", "copy", "out/a.m4a"] ["out", "a.m4a"] true
        ⟨[], [["out"]], [], []⟩).1
      (atomic_ffmpeg_encode id
        ⟨fun c => if c = firstCmd id ["ffmpeg", "-map", "0:v:0?", "-c:v", "copy", "out/a.m4a"]
            ["out", "a.m4a"] then ⟨1, "png decode error", none⟩ else ⟨2, "still bad", none⟩,
          fun _ => false⟩
        ["ffmpeg", "-map", "0:v:0?", "-c:v", "copy", "out/a.m4a"] ["out", "a.m4a"] true
        ⟨[], [["out"]], [], []⟩).2
      (by decide) rfl).1 2
      [firstCmd id ["ffmpeg", "-map", "0:v:0?", "-c:v", "copy", "out/a.m4a"] ["out", "a.m4a"],
        retryCmd id ["ffmpeg", "-map", "0:v:0?", "-c:v", "copy", "out/a.m4a"] ["out", "a.m4a"]]
      rfl
    obtain ⟨-, hmain⟩ := h
    obtain ⟨-, -, hterm⟩ := hmain (by decide)
    obtain ⟨-, -, htr⟩ := hterm (by decide) (by decide)
    rw [← htr]
    rfl
  · decide

/-- **C2.** While the safety guard is active, the per-source pipeline, the
output deletion, and the full-output purge each return without touching
the filesystem (and the pipeline leaves the in-progress set alone and runs
no body). -/
theorem C2_guard_suppresses_mutation (nfc : String → String) (O : SyncOracle)
    (sp : PathC) (cfg : Config) (force check_stable : Bool) (st : SyncState)
    (fs : FS) (hg : safety_guard_active cfg st.fs = true)
    (hg' : safety_guard_active cfg fs = true) :
    process_source_file nfc O sp cfg force check_stable st = (st, .ok (), false)
    ∧ delete_outputs nfc sp cfg fs = fs
    ∧ purge_all_outputs cfg fs = fs := by
  refine ⟨?_, ?_, ?_⟩
  · unfold process_source_file
    dsimp only
    by_cases ha : is_audio_file nfc st.fs (nfcPath nfc sp)
    · rw [ha]
      simp only [Bool.not_true, Bool.false_eq_true, if_false]
      rw [if_pos hg]
    · have ha' : is_audio_file nfc st.fs (nfcPath nfc sp) = false := by
        simpa using ha
      rw [ha']
      simp only [Bool.not_false, if_true]
  · unfold delete_outputs
    rw [if_pos hg']
  · unfold purge_all_outputs
    rw [if_pos hg']

/-- **C2 witness.** A concrete configuration with an empty source
directory: the guard is active and none of the three operations changes
anything. -/
theorem C2_guard_suppresses_mutation_witness :
    process_source_file id ⟨⟨fun _ => ⟨0, "", some {}⟩, fun _ => false⟩, fun _ => true⟩
        ["src", "a.flac"] ⟨["src"], [⟨"aac", "aac", ["out"], "256k", true⟩], false, true⟩
        false true
        ⟨⟨[(["src", "a.flac"], {}), (["out", "x.m4a"], {})], [["out"]], [], []⟩, []⟩
      = (⟨⟨[(["src", "a.flac"], {}), (["out", "x.m4a"], {})], [["out"]], [], []⟩, []⟩,
          .ok (), false)
    ∧ delete_outputs id ["src", "a.flac"]
        ⟨["src"], [⟨"aac", "aac", ["out"], "256k", true⟩], false, true⟩
        ⟨[(["out", "x.m4a"], {})], [["out"]], [], []⟩
      = ⟨[(["out", "x.m4a"], {})], [["out"]], [], []⟩
    ∧ purge_all_outputs ⟨["src"], [⟨"aac", "aac", ["out"], "256k", true⟩], false, true⟩
        ⟨[(["out", "x.m4a"], {})], [["out"]], [], []⟩
      = ⟨[(["out", "x.m4a"], {})], [["out"]], [], []⟩ :=
  C2_guard_suppresses_mutation id
    ⟨⟨fun _ => ⟨0, "", some {}⟩, fun _ => false⟩, fun _ => true⟩
    ["src", "a.flac"] ⟨["src"], [⟨"aac", "aac", ["out"], "256k", true⟩], false, true⟩
    false true
    ⟨⟨[(["src", "a.flac"], {}), (["out", "x.m4a"], {})], [["out"]], [], []⟩, []⟩
    ⟨[(["out", "x.m4a"], {})], [["out"]], [], []⟩
    (by decide) (by decide)

/-- **C7.** The pipeline's in-progress discipline: after any complete call
the in-progress set equals its value before the call (the path is added on
entry and discarded in the `finally`, on success and on a raise alike); a
call for a path already in the set does nothing and returns unchanged; and
the guarded body runs exactly when the path is an audio file, the guard is
off, the stability wait passes (or is skipped), and the path is not
already in progress. -/
theorem C7_in_progress_discipline (nfc : String → String) (O : SyncOracle)
    (sp : PathC) (cfg : Config) (force check_stable : Bool) (st st' : SyncState)
    (res : Except Unit Unit) (ran : Bool)
    (heq : process_source_file nfc O sp cfg force check_stable st = (st', res, ran)) :
    st'.inProgress = st.inProgress
    ∧ (nfcPath nfc sp ∈ st.inProgress → st' = st ∧ res = .ok () ∧ ran = false)
    ∧ (ran = true ↔ (is_audio_file nfc st.fs (nfcPath nfc sp) = true
        ∧ safety_guard_active cfg st.fs = false
        ∧ (check_stable = false ∨ O.stableOk (nfcPath nfc sp) = true)
        ∧ nfcPath nfc sp ∉ st.inProgress)) := by
  classical
  unfold process_source_file at heq
  dsimp only at heq
  by_cases ha : is_audio_file nfc st.fs (nfcPath nfc sp) = true
  · rw [ha] at heq
    simp only [Bool.not_true, Bool.false_eq_true, if_false] at heq
    by_cases hg : safety_guard_active cfg st.fs = true
    · rw [if_pos hg] at heq
      injection heq with h1 h2
      injection h2 with h2 h3
      subst h1; subst h2; subst h3
      exact ⟨rfl, fun _ => ⟨rfl, rfl, rfl⟩,
        iff_of_false (by simp) (fun hc => by rw [hc.2.1] at hg; exact absurd hg (by decide))⟩
    · rw [if_neg hg] at heq
      by_cases hs : (check_stable && !O.stableOk (nfcPath nfc sp)) = true
      · rw [if_pos hs] at heq
        injection heq with h1 h2
        injection h2 with h2 h3
        subst h1; subst h2; subst h3
        refine ⟨rfl, fun _ => ⟨rfl, rfl, rfl⟩, iff_of_false (by simp) fun hc => ?_⟩
        rw [Bool.and_eq_true, Bool.not_eq_true'] at hs
        rcases hc.2.2.1 with hcs | hok
        · rw [hcs] at hs
          exact Bool.false_ne_true hs.1
        · rw [hok] at hs
          exact absurd hs.2 (by decide)
      · rw [if_neg hs] at heq
        by_cases hm : st.inProgress.contains (nfcPath nfc sp) = true
        · rw [if_pos hm] at heq
          injection heq with h1 h2
          injection h2 with h2 h3
          subst h1; subst h2; subst h3
          have hmem : nfcPath nfc sp ∈ st.inProgress := by
            simpa using hm
          exact ⟨rfl, fun _ => ⟨rfl, rfl, rfl⟩,
            iff_of_false (by simp) fun hc => hc.2.2.2 hmem⟩
        · rw [if_neg hm] at heq
          have hmem : nfcPath nfc sp ∉ st.inProgress := by
            simpa using hm
          have hfilter : (nfcPath nfc sp :: st.inProgress).filter
              (· ≠ nfcPath nfc sp) = st.inProgress := by
            rw [List.filter_cons]
            simp only [ne_eq, not_true_eq_false, decide_False, Bool.false_eq_true, if_false]
            exact List.filter_eq_self.mpr fun a hx => by
              simp only [ne_eq, decide_eq_true_eq]
              exact fun hax => hmem (hax ▸ hx)
          have hstab : check_stable = false ∨ O.stableOk (nfcPath nfc sp) = true := by
            rw [Bool.and_eq_true] at hs
            push_neg at hs
            by_cases hcs : check_stable = true
            · right
              have := hs hcs
              simpa using this
            · left
              simpa using hcs
          rcases hpo : process_outputs nfc O.enc (nfcPath nfc sp) cfg force st.fs
            with ⟨fs1, r⟩
          rw [hpo] at heq
          dsimp only at heq
          cases r with
          | error e =>
            injection heq with h1 h2
            injection h2 with h2 h3
            subst h1; subst h2; subst h3
            exact ⟨hfilter, fun hmem' => absurd hmem' hmem,
              iff_of_true rfl ⟨ha, by simpa using hg, hstab, hmem⟩⟩
          | ok v =>
            injection heq with h1 h2
            injection h2 with h2 h3
            subst h1; subst h2; subst h3
            exact ⟨hfilter, fun hmem' => absurd hmem' hmem,
              iff_of_true rfl ⟨ha, by simpa using hg, hstab, hmem⟩⟩
  · have ha' : is_audio_file nfc st.fs (nfcPath nfc sp) = false := by
      simpa using ha
    rw [ha'] at heq
    simp only [Bool.not_false, if_true] at heq
    injection heq with h1 h2
    injection h2 with h2 h3
    subst h1; subst h2; subst h3
    exact ⟨rfl, fun _ => ⟨rfl, rfl, rfl⟩,
      iff_of_false (by simp) fun hc => by rw [hc.1] at ha'; exact absurd ha' (by decide)⟩

/-- **C7 witness.** A concrete call for a path already in the in-progress
set leaves the state untouched, runs no body, and restores the set. -/
theorem C7_in_progress_discipline_witness :
    (process_source_file id ⟨⟨fun _ => ⟨0, "", some {}⟩, fun _ => false⟩, fun _ => true⟩
        ["src", "a.flac"]
        ⟨["src"], [⟨"aac", "aac", ["out"], "256k", true⟩], false, true⟩ false false
        ⟨⟨[(["src", "a.flac"], {}), (["out", "x.m4a"], {})], [["src"], ["out"]], [], []⟩,
          [["src", "a.flac"]]⟩).1
      = ⟨⟨[(["src", "a.flac"], {}), (["out", "x.m4a"], {})], [["src"], ["out"]], [], []⟩,
          [["src", "a.flac"]]⟩ := by
  have h := C7_in_progress_discipline id
    ⟨⟨fun _ => ⟨0, "", some {}⟩, fun _ => false⟩, fun _ => true⟩
    ["src", "a.flac"] ⟨["src"], [⟨"aac", "aac", ["out"], "256k", true⟩], false, true⟩
    false false
    ⟨⟨[(["src", "a.flac"], {}), (["out", "x.m4a"], {})], [["src"], ["out"]], [], []⟩,
      [["src", "a.flac"]]⟩
    (process_source_file id ⟨⟨fun _ => ⟨0, "", some {}⟩, fun _ => false⟩, fun _ => true⟩
        ["src", "a.flac"]
        ⟨["src"], [⟨"aac", "aac", ["out"], "256k", true⟩], false, true⟩ false false
        ⟨⟨[(["src", "a.flac"], {}), (["out", "x.m4a"], {})], [["src"], ["out"]], [], []⟩,
          [["src", "a.flac"]]⟩).1
    (process_source_file id ⟨⟨fun _ => ⟨0, "", some {}⟩, fun _ => false⟩, fun _ => true⟩
        ["src", "a.flac"]
        ⟨["src"], [⟨"aac", "aac", ["out"], "256k", true⟩], false, true⟩ false false
        ⟨⟨[(["src", "a.flac"], {}), (["out", "x.m4a"], {})], [["src"], ["out"]], [], []⟩,
          [["src", "a.flac"]]⟩).2.1
    (process_source_file id ⟨⟨fun _ => ⟨0, "", some {}⟩, fun _ => false⟩, fun _ => true⟩
        ["src", "a.flac"]
        ⟨["src"], [⟨"aac", "aac", ["out"], "256k", true⟩], false, true⟩ false false
        ⟨⟨[(["src", "a.flac"], {}), (["out", "x.m4a"], {})], [["src"], ["out"]], [], []⟩,
          [["src", "a.flac"]]⟩).2.2
    rfl
  exact (h.2.1 (by decide)).1

/-! ## Lemmas for `wait_for_stable` -/

theorem lastChange_le (size : Nat → Option Nat) : ∀ t, lastChange size t ≤ t
  | 0 => le_refl 0
  | t + 1 => by
    rw [lastChange]
    split
    · exact le_trans (lastChange_le size t) (by omega)
    · exact le_refl _

theorem lastChange_window (size : Nat → Option Nat) :
    ∀ t u, lastChange size t ≤ u → u ≤ t → size u = size t
  | 0, u, _, hu => by
    have : u = 0 := by omega
    rw [this]
  | t + 1, u, h1, h2 => by
    rw [lastChange] at h1
    split at h1
    next heq =>
      rcases Nat.lt_or_ge u (t + 1) with hu | hu
      · rw [heq]
        exact lastChange_window size t u h1 (by omega)
      · have : u = t + 1 := by omega
        rw [this]
    next =>
      have : u = t + 1 := by omega
      rw [this]

theorem lastChange_le_of_window (size : Nat → Option Nat) (c : Nat) :
    ∀ t, c ≤ t → (∀ u, c ≤ u → u ≤ t → size u = size c) →
    lastChange size t ≤ c
  | 0, hc, _ => by
    rw [lastChange]
    omega
  | t + 1, hc, hw => by
    rcases Nat.lt_or_ge c (t + 1) with hlt | hge
    · have heq : size (t + 1) = size t := by
        rw [hw (t + 1) (by omega) (by omega), hw t (by omega) (by omega)]
      rw [lastChange, if_pos heq]
      exact lastChange_le_of_window size c t (by omega)
        fun u h1 h2 => hw u h1 (by omega)
    · exact le_trans (lastChange_le size (t + 1)) (by omega)

/-- The full characterisation of the polling loop, carried through its
invariants: at entry, `lc` is the last observed change, sizes were `ls`
since then, every earlier read succeeded, and no earlier tick satisfied
the stability test. -/
theorem wfsLoop_iff (size : Nat → Option Nat) (mS : Nat) :
    ∀ (f t ls lc : Nat), lc ≤ t →
    (∀ u, u < t → (size u).isSome = true) →
    (∀ u, lc ≤ u → u < t → size u = some ls) →
    (t = 0 → lc = 0 ∧ size 0 = some ls) →
    (0 < t → lc = lastChange size (t - 1)) →
    (∀ u, u < t → ¬(mS ≤ u - lastChange size u)) →
    (wfsLoop size mS f t ls lc = true ↔
      ∃ t', t ≤ t' ∧ t' < t + f ∧ (∀ u, u ≤ t' → (size u).isSome = true)
        ∧ mS ≤ t' - lastChange size t')
  | 0, t, ls, lc, _, _, _, _, _, _ => by
    refine iff_of_false (by simp [wfsLoop]) ?_
    rintro ⟨t', h1, h2, -, -⟩
    omega
  | f + 1, t, ls, lc, hlc, hreads, hconst, ht0, htpos, hnosucc => by
    cases hst : size t with
    | none =>
      refine iff_of_false (by simp [wfsLoop, hst]) ?_
      rintro ⟨t', h1, h2, h3, -⟩
      have h := h3 t (by omega)
      rw [hst] at h
      exact absurd h (by decide)
    | some cur =>
      have hred : wfsLoop size mS (f + 1) t ls lc
          = if cur ≠ ls then wfsLoop size mS f (t + 1) cur t
            else if mS ≤ t - lc then true else wfsLoop size mS f (t + 1) ls lc := by
        simp only [wfsLoop, hst]
      rw [hred]
      have hreads' : ∀ u, u < t + 1 → (size u).isSome = true := fun u hu => by
        rcases Nat.lt_or_ge u t with h | h
        · exact hreads u h
        · have : u = t := by omega
          rw [this, hst]
          rfl
      by_cases hch : cur ≠ ls
      · rw [if_pos hch]
        rcases Nat.eq_zero_or_pos t with rfl | htp
        · obtain ⟨-, hs0⟩ := ht0 rfl
          rw [hs0] at hst
          injection hst with h
          exact absurd h.symm hch
        · have hlc' := htpos htp
          have hlcle := lastChange_le size (t - 1)
          have hprev : size (t - 1) = some ls := hconst (t - 1) (by omega) (by omega)
          have key : size ((t - 1) + 1) ≠ size (t - 1) := by
            rw [show (t - 1) + 1 = t by omega, hst, hprev]
            intro hcc
            injection hcc with hcc
            exact hch hcc
          have hLCt : lastChange size t = t := by
            have h1 : lastChange size ((t - 1) + 1) = (t - 1) + 1 := by
              rw [lastChange, if_neg key]
            calc lastChange size t = lastChange size ((t - 1) + 1) := by
                  rw [show (t - 1) + 1 = t by omega]
              _ = (t - 1) + 1 := h1
              _ = t := by omega
          have hms : 0 < mS := by
            by_contra hms0
            have h0 := hnosucc 0 htp
            rw [lastChange] at h0
            omega
          have IH := wfsLoop_iff size mS f (t + 1) cur t (by omega) hreads'
            (fun u hu1 hu2 => by
              have : u = t := by omega
              rw [this, hst])
            (fun h => absurd h (by omega))
            (fun _ => by
              rw [show t + 1 - 1 = t by omega, hLCt])
            (fun u hu => by
              rcases Nat.lt_or_ge u t with h | h
              · exact hnosucc u h
              · have : u = t := by omega
                rw [this, hLCt]
                omega)
          rw [IH]
          constructor
          · rintro ⟨t', h1, h2, h3, h4⟩
            exact ⟨t', by omega, by omega, h3, h4⟩
          · rintro ⟨t', h1, h2, h3, h4⟩
            refine ⟨t', ?_, by omega, h3, h4⟩
            rcases Nat.lt_or_ge t' (t + 1) with hlt | hge
            · have ht' : t' = t := by omega
              rw [ht', hLCt] at h4
              omega
            · omega
      · have hcur : cur = ls := not_ne_iff.mp hch
        rw [if_neg hch]
        have hLCt : lastChange size t = lc := by
          rcases Nat.eq_zero_or_pos t with rfl | htp
          · rw [lastChange]
            exact ((ht0 rfl).1).symm
          · have hlc' := htpos htp
            have hlcle := lastChange_le size (t - 1)
            have hprev : size (t - 1) = some ls := hconst (t - 1) (by omega) (by omega)
            have key : size ((t - 1) + 1) = size (t - 1) := by
              rw [show (t - 1) + 1 = t by omega, hst, hprev, hcur]
            have h1 : lastChange size ((t - 1) + 1) = lastChange size (t - 1) := by
              rw [lastChange, if_pos key]
            calc lastChange size t = lastChange size ((t - 1) + 1) := by
                  rw [show (t - 1) + 1 = t by omega]
              _ = lastChange size (t - 1) := h1
              _ = lc := hlc'.symm
        by_cases hstab : mS ≤ t - lc
        · rw [if_pos hstab]
          refine iff_of_true rfl ⟨t, le_refl t, by omega,
            fun u hu => hreads' u (by omega), by rw [hLCt]; exact hstab⟩
        · rw [if_neg hstab]
          have IH := wfsLoop_iff size mS f (t + 1) ls lc (by omega) hreads'
            (fun u hu1 hu2 => by
              rcases Nat.lt_or_ge u t with h | h
              · exact hconst u hu1 h
              · have : u = t := by omega
                rw [this, hst, hcur])
            (fun h => absurd h (by omega))
            (fun _ => by
              rw [show t + 1 - 1 = t by omega, hLCt])
            (fun u hu => by
              rcases Nat.lt_or_ge u t with h | h
              · exact hnosucc u h
              · have : u = t := by omega
                rw [this, hLCt]
                exact hstab)
          rw [IH]
          constructor
          · rintro ⟨t', h1, h2, h3, h4⟩
            exact ⟨t', by omega, by omega, h3, h4⟩
          · rintro ⟨t', h1, h2, h3, h4⟩
            refine ⟨t', ?_, by omega, h3, h4⟩
            rcases Nat.lt_or_ge t' (t + 1) with hlt | hge
            · have ht' : t' = t := by omega
              rw [ht', hLCt] at h4
              exact absurd h4 hstab
            · omega

/-- The loop only reads the size at ticks in `[t, t + f)`. -/
theorem wfsLoop_congr (size size' : Nat → Option Nat) (mS : Nat) :
    ∀ (f t ls lc : Nat), (∀ u, t ≤ u → u < t + f → size u = size' u) →
    wfsLoop size mS f t ls lc = wfsLoop size' mS f t ls lc
  | 0, _, _, _, _ => rfl
  | f + 1, t, ls, lc, h => by
    have ht : size t = size' t := h t (le_refl t) (by omega)
    simp only [wfsLoop, ht]
    cases size' t with
    | none => rfl
    | some cur =>
      dsimp only
      have hrec1 := wfsLoop_congr size size' mS f (t + 1) cur t
        fun u h1 h2 => h u (by omega) (by omega)
      have hrec2 := wfsLoop_congr size size' mS f (t + 1) ls lc
        fun u h1 h2 => h u (by omega) (by omega)
      by_cases hcc : cur ≠ ls
      · rw [if_pos hcc, if_pos hcc]
        exact hrec1
      · rw [if_neg hcc, if_neg hcc]
        by_cases hstab : mS ≤ t - lc
        · rw [if_pos hstab, if_pos hstab]
        · rw [if_neg hstab, if_neg hstab]
          exact hrec2

/-- **C8.** In the tick model of the polling loop (one tick = one 0.2 s
poll, durations in ticks), `wait_for_stable` returns true exactly when
some tick before the timeout ends a window of at least `minStable` ticks
over which every size read succeeded and the size never changed (all reads
up to that tick succeeding); in particular it returns false when a read
fails before stabilising or when no such window exists before the timeout.
And the result depends on no tick at or beyond the timeout — the loop
terminates within the timeout bound. -/
theorem C8_wait_for_stable_characterization (size size' : Nat → Option Nat)
    (minStable timeout : Nat) :
    (wait_for_stable size minStable timeout = true ↔
      ∃ t, t < timeout ∧ (∀ u, u ≤ t → (size u).isSome = true)
        ∧ ∃ c, c + minStable ≤ t ∧ ∀ u, c ≤ u → u ≤ t → size u = size c)
    ∧ (size 0 = size' 0 → (∀ u, u < timeout → size u = size' u) →
        wait_for_stable size minStable timeout
          = wait_for_stable size' minStable timeout) := by
  constructor
  · unfold wait_for_stable
    cases h0 : size 0 with
    | none =>
      refine iff_of_false (by simp) ?_
      rintro ⟨t, -, h2, -⟩
      have h := h2 0 (by omega)
      rw [h0] at h
      exact absurd h (by decide)
    | some s0 =>
      rw [wfsLoop_iff size minStable timeout 0 s0 0 (le_refl 0)
        (fun u hu => absurd hu (by omega))
        (fun u h1 h2 => absurd h2 (by omega))
        (fun _ => ⟨rfl, h0⟩)
        (fun h => absurd h (by omega))
        (fun u hu => absurd hu (by omega))]
      constructor
      · rintro ⟨t', h1, h2, h3, h4⟩
        refine ⟨t', by omega, h3, lastChange size t', by
            have := lastChange_le size t'
            omega, ?_⟩
        intro u hu1 hu2
        rw [lastChange_window size t' u hu1 hu2,
          lastChange_window size t' (lastChange size t') (le_refl _) (lastChange_le size t')]
      · rintro ⟨t, h1, h2, c, h3, h4⟩
        refine ⟨t, by omega, by omega, h2, ?_⟩
        have hle := lastChange_le_of_window size c t (by omega) fun u hu1 hu2 => h4 u hu1 hu2
        omega
  · intro h0 hall
    unfold wait_for_stable
    rw [h0]
    cases size' 0 with
    | none => rfl
    | some s0 =>
      exact wfsLoop_congr size size' minStable timeout 0 s0 0
        fun u h1 h2 => hall u (by omega)

/-- **C8 witness.** A file whose size is constantly 5 stabilises within a
3-tick timeout with a 1-tick stability window. -/
theorem C8_wait_for_stable_characterization_witness :
    wait_for_stable (fun _ => some 5) 1 3 = true :=
  (C8_wait_for_stable_characterization (fun _ => some 5) (fun _ => some 5) 1 3).1.mpr
    ⟨1, by omega, fun u _ => rfl, 0, by omega, fun u _ _ => rfl⟩

/-! ## Lemmas for `delete_outputs` and the orphan sweep -/

theorem nfcPath_id (p : PathC) : nfcPath id p = p := by
  simp [nfcPath]

theorem lookupFile_removeIfExists (fs : FS) (p q : PathC) :
    (removeIfExists fs p).lookupFile q = if q = p then none else fs.lookupFile q := by
  unfold removeIfExists
  by_cases hex : fs.pexists p = true
  · rw [if_pos hex, lookupFile_removeFile]
  · rw [if_neg (by simpa using hex)]
    by_cases hq : q = p
    · rw [if_pos hq, hq]
      unfold FS.pexists at hex
      rw [Bool.or_eq_true] at hex
      push_neg at hex
      have hisf := hex.1
      unfold FS.isfile at hisf
      cases hlk : fs.lookupFile p with
      | none => rfl
      | some d =>
        rw [hlk] at hisf
        simp at hisf
    · rw [if_neg hq]

@[simp] theorem dirs_removeIfExists (fs : FS) (p : PathC) :
    (removeIfExists fs p).dirs = fs.dirs := by
  unfold removeIfExists
  split <;> rfl

@[simp] theorem inaccessible_removeIfExists (fs : FS) (p : PathC) :
    (removeIfExists fs p).inaccessible = fs.inaccessible := by
  unfold removeIfExists
  split <;> rfl

@[simp] theorem isdir_removeIfExists (fs : FS) (p q : PathC) :
    (removeIfExists fs p).isdir q = fs.isdir q := by
  unfold removeIfExists
  split <;> rfl

theorem pexists_removeIfExists_ne (fs : FS) (p q : PathC) (h : q ≠ p) :
    (removeIfExists fs p).pexists q = fs.pexists q := by
  unfold FS.pexists FS.isfile
  rw [lookupFile_removeIfExists, if_neg h, isdir_removeIfExists]

theorem dropLast_joinP (d : PathC) (n : String) : (joinP d n).dropLast = d :=
  List.dropLast_concat

theorem any_congr_mem {α : Type} (l : List α) (p q : α → Bool)
    (h : ∀ a ∈ l, p a = q a) : l.any p = l.any q := by
  induction l with
  | nil => rfl
  | cons a l ih =>
    rw [List.any_cons, List.any_cons, h a (by simp), ih fun x hx => h x (by simp [hx])]

/-- `has_lossless_source` only inspects paths beside the source. -/
theorem has_lossless_congr (fs₁ fs₂ : FS) (sp : PathC)
    (h : ∀ ext ∈ LOSSLESS_EXTENSIONS,
      fs₁.pexists (joinP (dirnameP sp) (pyStem (basenameP sp) ++ ext))
        = fs₂.pexists (joinP (dirnameP sp) (pyStem (basenameP sp) ++ ext))) :
    has_lossless_source fs₁ sp = has_lossless_source fs₂ sp := by
  unfold has_lossless_source
  exact any_congr_mem _ _ _ fun ext hx => by
    dsimp only
    rw [h ext hx]

theorem has_lossless_removeIfExists (fs : FS) (k sp : PathC)
    (h : k.dropLast ≠ dirnameP sp) :
    has_lossless_source (removeIfExists fs k) sp = has_lossless_source fs sp := by
  refine has_lossless_congr _ _ _ fun ext _ => ?_
  refine pexists_removeIfExists_ne _ _ _ fun hc => ?_
  exact h (by rw [← hc, dropLast_joinP])

/-- Every path `deleteOutputsStep id sp · o` removes lies in `o.path`. -/
theorem deleteOutputsStep_frame (sp : PathC) (o : OutputConfig) :
    ∀ (names : List String) (fs : FS) (p : PathC), p.dropLast ≠ o.path →
    (names.foldl (fun fs n => removeIfExists fs (nfcPath id (joinP o.path n))) fs).lookupFile p
      = fs.lookupFile p
  | [], _, _, _ => rfl
  | n :: rest, fs, p, hp => by
    rw [List.foldl_cons, deleteOutputsStep_frame sp o rest _ p hp,
      lookupFile_removeIfExists, if_neg]
    intro hc
    rw [nfcPath_id] at hc
    exact hp (by rw [hc, dropLast_joinP])

theorem innerDel_lookup (d : PathC) :
    ∀ (names : List String) (fs : FS) (m : String),
    (names.foldl (fun fs n => removeIfExists fs (nfcPath id (joinP d n))) fs).lookupFile
        (joinP d m)
      = if m ∈ names then none else fs.lookupFile (joinP d m)
  | [], fs, m => by simp
  | n :: rest, fs, m => by
    rw [List.foldl_cons, innerDel_lookup d rest _ m]
    by_cases hm : m ∈ rest
    · rw [if_pos hm, if_pos (List.mem_cons_of_mem n hm)]
    · rw [if_neg hm]
      by_cases hmn : m = n
      · rw [if_pos (hmn ▸ List.mem_cons_self m rest), lookupFile_removeIfExists,
          if_pos (by rw [nfcPath_id, hmn])]
      · rw [if_neg (fun hc => (List.mem_cons.1 hc).elim hmn hm),
          lookupFile_removeIfExists, if_neg]
        intro hc
        rw [nfcPath_id] at hc
        exact hmn (joinP_inj hc).2

theorem innerDel_pexists (d : PathC) :
    ∀ (names : List String) (fs : FS) (p : PathC), p.dropLast ≠ d →
    (names.foldl (fun fs n => removeIfExists fs (nfcPath id (joinP d n))) fs).pexists p
      = fs.pexists p
  | [], _, _, _ => rfl
  | n :: rest, fs, p, hp => by
    rw [List.foldl_cons, innerDel_pexists d rest _ p hp, pexists_removeIfExists_ne]
    intro hc
    rw [nfcPath_id] at hc
    exact hp (by rw [hc, dropLast_joinP])

theorem has_lossless_innerDel (d : PathC) (names : List String) (fs : FS) (sp : PathC)
    (h : d ≠ dirnameP sp) :
    has_lossless_source
        (names.foldl (fun fs n => removeIfExists fs (nfcPath id (joinP d n))) fs) sp
      = has_lossless_source fs sp := by
  refine has_lossless_congr _ _ _ fun ext _ => ?_
  exact innerDel_pexists d names fs _ (by rw [dropLast_joinP]; exact h.symm)

/-- A frame for the per-target fold of `delete_outputs`: paths outside
every listed target directory are untouched. -/
theorem deleteOutputsFold_frame (sp : PathC) :
    ∀ (L : List OutputConfig) (fs : FS) (p : PathC),
    (∀ o' ∈ L, p.dropLast ≠ o'.path) →
    (L.foldl (deleteOutputsStep id sp) fs).lookupFile p = fs.lookupFile p
  | [], _, _, _ => rfl
  | o' :: rest, fs, p, h => by
    rw [List.foldl_cons,
      deleteOutputsFold_frame sp rest _ p (fun o₂ h₂ => h o₂ (List.mem_cons_of_mem o' h₂))]
    unfold deleteOutputsStep
    exact deleteOutputsStep_frame sp o' _ fs p (h o' (List.mem_cons_self o' rest))

theorem deleteNamesFor_congr (fs₁ fs₂ : FS) (sp : PathC) (o : OutputConfig)
    (h : has_lossless_source fs₁ sp = has_lossless_source fs₂ sp) :
    deleteNamesFor id fs₁ sp o = deleteNamesFor id fs₂ sp o := by
  unfold deleteNamesFor
  rw [h]

/-- The whole per-target fold of `delete_outputs`: what happens at
`o.path/m` for a target `o`, given pairwise-distinct target paths and a
source directory that is not an output directory. -/
theorem deleteOutputsFold_lookup (sp : PathC) :
    ∀ (L : List OutputConfig) (fs : FS) (o : OutputConfig) (m : String),
    o ∈ L → L.Pairwise (fun a b => a.path ≠ b.path) →
    (∀ o' ∈ L, dirnameP sp ≠ o'.path) →
    (L.foldl (deleteOutputsStep id sp) fs).lookupFile (joinP o.path m)
      = if m ∈ deleteNamesFor id fs sp o then none
        else fs.lookupFile (joinP o.path m)
  | [], _, _, _, ho, _, _ => absurd ho (List.not_mem_nil _)
  | o' :: rest, fs, o, m, ho, hpw, hsrc => by
    rw [List.foldl_cons]
    obtain ⟨hhead, hpw'⟩ := List.pairwise_cons.1 hpw
    rcases List.mem_cons.1 ho with rfl | hmem
    · rw [deleteOutputsFold_frame sp rest _ (joinP o.path m)
        (fun o₂ h₂ => by rw [dropLast_joinP]; exact hhead o₂ h₂)]
      unfold deleteOutputsStep
      exact innerDel_lookup o.path _ fs m
    · have hne : o.path ≠ o'.path := fun hc => (hhead o hmem) hc.symm
      have hstep : (deleteOutputsStep id sp fs o').lookupFile (joinP o.path m)
          = fs.lookupFile (joinP o.path m) := by
        unfold deleteOutputsStep
        exact deleteOutputsStep_frame sp o' _ fs (joinP o.path m)
          (by rw [dropLast_joinP]; exact hne)
      have hll : has_lossless_source (deleteOutputsStep id sp fs o') sp
          = has_lossless_source fs sp := by
        unfold deleteOutputsStep
        exact has_lossless_innerDel o'.path _ fs sp
          (fun hc => (hsrc o' (List.mem_cons_self o' rest)) hc.symm)
      rw [deleteOutputsFold_lookup sp rest _ o m hmem hpw'
        (fun o₂ h₂ => hsrc o₂ (List.mem_cons_of_mem o' h₂)),
        deleteNamesFor_congr _ _ sp o hll, hstep]

theorem sidecarInner_frame :
    ∀ (L : List OutputConfig) (fs : FS) (p : PathC) (nm : String),
    (∀ o' ∈ L, p ≠ joinP o'.path nm) →
    (L.foldl (fun fs o => removeIfExists fs (nfcPath id (joinP o.path nm))) fs).lookupFile p
      = fs.lookupFile p
  | [], _, _, _, _ => rfl
  | o' :: rest, fs, p, nm, h => by
    rw [List.foldl_cons,
      sidecarInner_frame rest _ p nm (fun o₂ h₂ => h o₂ (List.mem_cons_of_mem o' h₂)),
      lookupFile_removeIfExists,
      if_neg (by rw [nfcPath_id]; exact h o' (List.mem_cons_self o' rest))]

theorem sidecarInner_mono :
    ∀ (L : List OutputConfig) (fs : FS) (p : PathC) (nm : String),
    (L.foldl (fun fs o => removeIfExists fs (nfcPath id (joinP o.path nm))) fs).lookupFile p
      = fs.lookupFile p
    ∨ (L.foldl (fun fs o => removeIfExists fs (nfcPath id (joinP o.path nm))) fs).lookupFile p
      = none
  | [], fs, p, nm => Or.inl rfl
  | o' :: rest, fs, p, nm => by
    rw [List.foldl_cons]
    rcases sidecarInner_mono rest (removeIfExists fs (nfcPath id (joinP o'.path nm))) p nm
      with h | h
    · rw [h, lookupFile_removeIfExists]
      by_cases hp : p = nfcPath id (joinP o'.path nm)
      · right
        rw [if_pos hp]
      · left
        rw [if_neg hp]
    · right
      exact h

theorem delete_sidecars_id_frame (sp : PathC) (cfg : Config) (fs : FS) (p : PathC)
    (h : ∀ o' ∈ cfg.outputs, p ≠ joinP o'.path (pyStem (basenameP sp) ++ ".lrc")) :
    (delete_sidecars id sp cfg fs).lookupFile p = fs.lookupFile p := by
  unfold delete_sidecars
  dsimp only
  rw [nfcPath_id]
  simp only [id_eq, SIDECAR_EXTENSIONS, List.foldl_cons, List.foldl_nil]
  exact sidecarInner_frame cfg.outputs fs p _ h

theorem delete_sidecars_id_mono (sp : PathC) (cfg : Config) (fs : FS) (p : PathC) :
    (delete_sidecars id sp cfg fs).lookupFile p = fs.lookupFile p
    ∨ (delete_sidecars id sp cfg fs).lookupFile p = none := by
  unfold delete_sidecars
  dsimp only
  rw [nfcPath_id]
  simp only [id_eq, SIDECAR_EXTENSIONS, List.foldl_cons, List.foldl_nil]
  exact sidecarInner_mono cfg.outputs fs p _

theorem str_append_left_cancel {a b c : String} (h : a ++ b = a ++ c) : b = c := by
  have hd := congrArg String.data h
  rw [String.data_append, String.data_append] at hd
  exact String.ext (List.append_cancel_left hd)

theorem extension_ne_lrc (o : OutputConfig) (hcodec : o.codec ∈ supportedCodecs) :
    o.extension ≠ ".lrc" := by
  have hc : o.codec = "alac" ∨ o.codec = "aac" ∨ o.codec = "mp3" ∨ o.codec = "opus"
      ∨ o.codec = "flac" ∨ o.codec = "wav" := by
    simpa [supportedCodecs, CODEC_EXTENSIONS] using hcodec
  unfold OutputConfig.extension
  rcases hc with hc | hc | hc | hc | hc | hc <;> rw [hc] <;> decide

/-- **C10.** For an MP3 source, `delete_outputs` removes, in each non-ALAC
target, the transcoded artifact `stem + extension` exactly when no
lossless source of the same stem exists (when one exists the artifact is
untouched), and in the ALAC target it removes the verbatim copy bearing
the source's original basename and nothing else among that directory's
files (the separate sidecar cleanup may additionally remove the
`stem + ".lrc"` lyrics sidecar, which is not an audio artifact).
Hypotheses: NFC normalisation acts as the identity on the names involved,
the guard is inactive, target paths are pairwise distinct, and the source
directory is not an output directory. -/
theorem C10_delete_outputs_mp3_scope (nfc : String → String)
    (hnfc : ∀ s, nfc s = s) (source_path : PathC) (cfg : Config) (fs : FS)
    (o : OutputConfig) (ho : o ∈ cfg.outputs)
    (hmp3 : is_mp3 source_path = true)
    (hguard : safety_guard_active cfg fs = false)
    (hpw : cfg.outputs.Pairwise fun a b => a.path ≠ b.path)
    (hsrc : ∀ o' ∈ cfg.outputs, dirnameP source_path ≠ o'.path)
    (hcodec : o.codec ∈ supportedCodecs) :
    (o.codec ≠ "alac" → has_lossless_source fs source_path = true →
      (delete_outputs nfc source_path cfg fs).lookupFile
          (joinP o.path (pyStem (basenameP source_path) ++ o.extension))
        = fs.lookupFile (joinP o.path (pyStem (basenameP source_path) ++ o.extension)))
    ∧ (o.codec ≠ "alac" → has_lossless_source fs source_path = false →
      (delete_outputs nfc source_path cfg fs).isfile
          (joinP o.path (pyStem (basenameP source_path) ++ o.extension)) = false)
    ∧ (o.codec = "alac" →
      (delete_outputs nfc source_path cfg fs).isfile
          (joinP o.path (basenameP source_path)) = false)
    ∧ (o.codec = "alac" → ∀ n, n ≠ basenameP source_path →
        n ≠ pyStem (basenameP source_path) ++ ".lrc" →
      (delete_outputs nfc source_path cfg fs).lookupFile (joinP o.path n)
        = fs.lookupFile (joinP o.path n)) := by
  have hfun : nfc = id := funext hnfc
  subst hfun
  have hdo : delete_outputs id source_path cfg fs
      = delete_sidecars id source_path cfg
          (cfg.outputs.foldl (deleteOutputsStep id source_path) fs) := by
    unfold delete_outputs
    dsimp only
    rw [nfcPath_id, if_neg (by simp [hguard])]
  have hfold := fun m => deleteOutputsFold_lookup source_path cfg.outputs fs o m ho hpw hsrc
  refine ⟨?_, ?_, ?_, ?_⟩
  · intro halac hll
    rw [hdo]
    rw [delete_sidecars_id_frame]
    · rw [hfold _, if_neg]
      unfold deleteNamesFor
      rw [hmp3]
      dsimp only
      rw [if_pos rfl, if_neg halac, hll]
      simp
    · intro o' ho' hc
      obtain ⟨hp, hn⟩ := joinP_inj hc
      exact extension_ne_lrc o hcodec (str_append_left_cancel hn)
  · intro halac hll
    have hmem : (pyStem (basenameP source_path) ++ o.extension)
        ∈ deleteNamesFor id fs source_path o := by
      unfold deleteNamesFor
      rw [hmp3]
      dsimp only
      rw [if_pos rfl, if_neg halac, hll]
      simp
    rw [hdo]
    unfold FS.isfile
    rcases delete_sidecars_id_mono source_path cfg
        (cfg.outputs.foldl (deleteOutputsStep id source_path) fs)
        (joinP o.path (pyStem (basenameP source_path) ++ o.extension)) with hm | hm
    · rw [hm, hfold _, if_pos hmem]
      rfl
    · rw [hm]
      rfl
  · intro halac
    have hmem : basenameP source_path ∈ deleteNamesFor id fs source_path o := by
      unfold deleteNamesFor
      rw [hmp3]
      dsimp only
      rw [if_pos rfl, if_pos halac]
      simp
    rw [hdo]
    unfold FS.isfile
    rcases delete_sidecars_id_mono source_path cfg
        (cfg.outputs.foldl (deleteOutputsStep id source_path) fs)
        (joinP o.path (basenameP source_path)) with hm | hm
    · rw [hm, hfold _, if_pos hmem]
      rfl
    · rw [hm]
      rfl
  · intro halac n hnb hnl
    rw [hdo]
    rw [delete_sidecars_id_frame]
    · rw [hfold _, if_neg]
      unfold deleteNamesFor
      rw [hmp3]
      dsimp only
      rw [if_pos rfl, if_pos halac]
      simpa using hnb
    · intro o' ho' hc
      obtain ⟨hp, hn⟩ := joinP_inj hc
      exact hnl hn

/-- **C10 witness.** A concrete MP3 source with a FLAC sibling: the AAC
target's transcoded artifact survives the deletion, while the ALAC
target's verbatim MP3 copy is removed and an unrelated artifact in the
ALAC directory survives. -/
theorem C10_delete_outputs_mp3_scope_witness :
    ((delete_outputs id ["src", "a.mp3"]
        ⟨["src"], [⟨"aac", "aac", ["outA"], "256k", true⟩,
          ⟨"alac", "alac", ["outB"], "", true⟩], false, true⟩
        ⟨[(["src", "a.mp3"], ⟨"m", 1⟩), (["src", "a.flac"], ⟨"f", 2⟩),
          (["outA", "a.m4a"], ⟨"t", 3⟩), (["outB", "a.mp3"], ⟨"c", 4⟩),
          (["outB", "b.m4a"], ⟨"u", 5⟩)],
          [["src"], ["outA"], ["outB"]], [], []⟩).lookupFile
        ["outA", "a.m4a"] = some ⟨"t", 3⟩)
    ∧ ((delete_outputs id ["src", "a.mp3"]
        ⟨["src"], [⟨"aac", "aac", ["outA"], "256k", true⟩,
          ⟨"alac", "alac", ["outB"], "", true⟩], false, true⟩
        ⟨[(["src", "a.mp3"], ⟨"m", 1⟩), (["src", "a.flac"], ⟨"f", 2⟩),
          (["outA", "a.m4a"], ⟨"t", 3⟩), (["outB", "a.mp3"], ⟨"c", 4⟩),
          (["outB", "b.m4a"], ⟨"u", 5⟩)],
          [["src"], ["outA"], ["outB"]], [], []⟩).isfile
        ["outB", "a.mp3"] = false)
    ∧ ((delete_outputs id ["src", "a.mp3"]
        ⟨["src"], [⟨"aac", "aac", ["outA"], "256k", true⟩,
          ⟨"alac", "alac", ["outB"], "", true⟩], false, true⟩
        ⟨[(["src", "a.mp3"], ⟨"m", 1⟩), (["src", "a.flac"], ⟨"f", 2⟩),
          (["outA", "a.m4a"], ⟨"t", 3⟩), (["outB", "a.mp3"], ⟨"c", 4⟩),
          (["outB", "b.m4a"], ⟨"u", 5⟩)],
          [["src"], ["outA"], ["outB"]], [], []⟩).lookupFile
        ["outB", "b.m4a"] = some ⟨"u", 5⟩) := by
  have h1 := C10_delete_outputs_mp3_scope id (fun _ => rfl) ["src", "a.mp3"]
    ⟨["src"], [⟨"aac", "aac", ["outA"], "256k", true⟩,
      ⟨"alac", "alac", ["outB"], "", true⟩], false, true⟩
    ⟨[(["src", "a.mp3"], ⟨"m", 1⟩), (["src", "a.flac"], ⟨"f", 2⟩),
      (["outA", "a.m4a"], ⟨"t", 3⟩), (["outB", "a.mp3"], ⟨"c", 4⟩),
      (["outB", "b.m4a"], ⟨"u", 5⟩)],
      [["src"], ["outA"], ["outB"]], [], []⟩
    ⟨"aac", "aac", ["outA"], "256k", true⟩ (by decide) (by decide) (by decide)
    (by decide) (by decide) (by decide)
  have h2 := C10_delete_outputs_mp3_scope id (fun _ => rfl) ["src", "a.mp3"]
    ⟨["src"], [⟨"aac", "aac", ["outA"], "256k", true⟩,
      ⟨"alac", "alac", ["outB"], "", true⟩], false, true⟩
    ⟨[(["src", "a.mp3"], ⟨"m", 1⟩), (["src", "a.flac"], ⟨"f", 2⟩),
      (["outA", "a.m4a"], ⟨"t", 3⟩), (["outB", "a.mp3"], ⟨"c", 4⟩),
      (["outB", "b.m4a"], ⟨"u", 5⟩)],
      [["src"], ["outA"], ["outB"]], [], []⟩
    ⟨"alac", "alac", ["outB"], "", true⟩ (by decide) (by decide) (by decide)
    (by decide) (by decide) (by decide)
  refine ⟨?_, ?_, ?_⟩
  · have := h1.1 (by decide) (by decide)
    rw [show joinP ["outA"] (pyStem (basenameP ["src", "a.mp3"])
        ++ OutputConfig.extension ⟨"aac", "aac", ["outA"], "256k", true⟩)
        = ["outA", "a.m4a"] by decide] at this
    rw [this]
    decide
  · have := h2.2.2.1 rfl
    rw [show joinP ["outB"] (basenameP ["src", "a.mp3"]) = ["outB", "a.mp3"] by decide] at this
    exact this
  · have := h2.2.2.2 rfl "b.m4a" (by decide) (by decide)
    rw [show joinP ["outB"] "b.m4a" = ["outB", "b.m4a"] by decide] at this
    rw [this]
    decide

/-! ## Lemmas for the orphan sweep -/

theorem chrLead_cons_elim {a : Char} {as bs : List Char}
    (h : chrLead (a :: as) bs = true) :
    ∃ bs', bs = a :: bs' ∧ chrLead as bs' = true := by
  cases bs with
  | nil => exact absurd h (by rw [chrLead]; exact Bool.false_ne_true)
  | cons b bs' =>
    rw [chrLead, Bool.and_eq_true] at h
    obtain ⟨h1, h2⟩ := h
    rw [beq_iff_eq] at h1
    exact ⟨bs', by rw [← h1], h2⟩

theorem ends_eq_chrLead (m e : String) :
    strEnds m e = chrLead e.toList.reverse m.toList.reverse := rfl

theorem lower_ends_lrc_eq (m : String) :
    strEnds (strLower m) ".lrc"
      = chrLead ['c', 'r', 'l', '.'] (m.toList.reverse.map Char.toLower) := by
  unfold strEnds strLower
  have h1 : (String.mk (m.toList.map Char.toLower)).toList = m.toList.map Char.toLower := rfl
  rw [h1, List.map_reverse]
  rfl

/-- A name ending in one of the audio artifact extensions cannot, once
lowered, end in ".lrc". -/
theorem lower_not_ends_lrc_of_ends (m e : String)
    (he : e ∈ [".m4a", ".mp3", ".opus", ".flac", ".wav"]) (h : strEnds m e = true) :
    strEnds (strLower m) ".lrc" = false := by
  rw [lower_ends_lrc_eq]
  rw [ends_eq_chrLead] at h
  fin_cases he
  · rw [show (".m4a".toList.reverse) = ['a', '4', 'm', '.'] from rfl] at h
    obtain ⟨r, hr, -⟩ := chrLead_cons_elim h
    rw [hr, List.map_cons, chrLead,
      show ('c' == Char.toLower 'a') = false from rfl, Bool.false_and]
  · rw [show (".mp3".toList.reverse) = ['3', 'p', 'm', '.'] from rfl] at h
    obtain ⟨r, hr, -⟩ := chrLead_cons_elim h
    rw [hr, List.map_cons, chrLead,
      show ('c' == Char.toLower '3') = false from rfl, Bool.false_and]
  · rw [show (".opus".toList.reverse) = ['s', 'u', 'p', 'o', '.'] from rfl] at h
    obtain ⟨r, hr, -⟩ := chrLead_cons_elim h
    rw [hr, List.map_cons, chrLead,
      show ('c' == Char.toLower 's') = false from rfl, Bool.false_and]
  · rw [show (".flac".toList.reverse) = ['c', 'a', 'l', 'f', '.'] from rfl] at h
    obtain ⟨r, hr, h2⟩ := chrLead_cons_elim h
    obtain ⟨r2, hr2, -⟩ := chrLead_cons_elim h2
    rw [hr, hr2, List.map_cons, List.map_cons, chrLead,
      show ('c' == Char.toLower 'c') = true from rfl, Bool.true_and, chrLead,
      show ('r' == Char.toLower 'a') = false from rfl, Bool.false_and]
  · rw [show (".wav".toList.reverse) = ['v', 'a', 'w', '.'] from rfl] at h
    obtain ⟨r, hr, -⟩ := chrLead_cons_elim h
    rw [hr, List.map_cons, chrLead,
      show ('c' == Char.toLower 'v') = false from rfl, Bool.false_and]

/-- A name carrying one of a target's valid artifact extensions is not a
(lowered-name) sidecar. -/
theorem valid_not_sidecar (o : OutputConfig) (m : String)
    (hcodec : o.codec ∈ supportedCodecs)
    (hvalid : (validExtensions o).any (fun e => strEnds m e) = true) :
    SIDECAR_EXTENSIONS.any (fun e => strEnds (strLower m) e) = false := by
  rw [SIDECAR_EXTENSIONS]
  simp only [List.any_cons, List.any_nil, Bool.or_false]
  rw [List.any_eq_true] at hvalid
  obtain ⟨e, he, hend⟩ := hvalid
  refine lower_not_ends_lrc_of_ends m e ?_ hend
  unfold validExtensions at he
  by_cases hal : o.codec = "alac"
  · rw [if_pos hal] at he
    rcases List.mem_cons.1 he with rfl | he
    · simp
    · rcases List.mem_singleton.1 he with rfl
      simp
  · rw [if_neg hal] at he
    rcases List.mem_singleton.1 he with rfl
    have hc : o.codec = "alac" ∨ o.codec = "aac" ∨ o.codec = "mp3" ∨ o.codec = "opus"
        ∨ o.codec = "flac" ∨ o.codec = "wav" := by
      simpa [supportedCodecs, CODEC_EXTENSIONS] using hcodec
    unfold OutputConfig.extension
    rcases hc with hc | hc | hc | hc | hc | hc
    · exact absurd hc hal
    all_goals rw [hc]; decide

/-- A conditional removal pass over the entry names of directory `d`: the
shape shared by the two per-target sweeps of `_cleanup_orphans` once the
NFC normalisation is the identity. -/
def condSweep (d : PathC) (c : String → Bool) (fs : FS) (names : List String) : FS :=
  names.foldl (fun fs n => if c n then fs.removeFile (joinP d n) else fs) fs

theorem condSweep_nil (d : PathC) (c : String → Bool) (fs : FS) :
    condSweep d c fs [] = fs := rfl

theorem condSweep_cons (d : PathC) (c : String → Bool) (fs : FS) (n : String)
    (ns : List String) :
    condSweep d c fs (n :: ns)
      = condSweep d c (if c n then fs.removeFile (joinP d n) else fs) ns := rfl

theorem condSweep_dirs (d : PathC) (c : String → Bool) (names : List String) :
    ∀ fs : FS, (condSweep d c fs names).dirs = fs.dirs := by
  induction names with
  | nil => intro fs; rfl
  | cons n ns ih =>
    intro fs
    rw [condSweep_cons, ih]
    by_cases hcn : c n = true
    · rw [if_pos hcn]; rfl
    · rw [if_neg hcn]

theorem condSweep_inacc (d : PathC) (c : String → Bool) (names : List String) :
    ∀ fs : FS, (condSweep d c fs names).inaccessible = fs.inaccessible := by
  induction names with
  | nil => intro fs; rfl
  | cons n ns ih =>
    intro fs
    rw [condSweep_cons, ih]
    by_cases hcn : c n = true
    · rw [if_pos hcn]; rfl
    · rw [if_neg hcn]

theorem condSweep_lookup_of_ne (d : PathC) (c : String → Bool) (names : List String)
    (q : PathC) (hq : ∀ n, c n = true → q ≠ joinP d n) :
    ∀ fs : FS, (condSweep d c fs names).lookupFile q = fs.lookupFile q := by
  induction names with
  | nil => intro fs; rfl
  | cons n ns ih =>
    intro fs
    rw [condSweep_cons, ih]
    by_cases hcn : c n = true
    · rw [if_pos hcn, lookupFile_removeFile, if_neg (hq n hcn)]
    · rw [if_neg hcn]

theorem condSweep_fileNamesIn (d : PathC) (c : String → Bool) (names : List String)
    (d' : PathC) (hd : d' ≠ d) :
    ∀ fs : FS, (condSweep d c fs names).fileNamesIn d' = fs.fileNamesIn d' := by
  induction names with
  | nil => intro fs; rfl
  | cons n ns ih =>
    intro fs
    rw [condSweep_cons, ih]
    by_cases hcn : c n = true
    · rw [if_pos hcn, fileNamesIn_removeFile]
      rintro ⟨-, hdrop⟩
      rw [dropLast_joinP] at hdrop
      exact hd hdrop.symm
    · rw [if_neg hcn]

theorem condSweep_lookup (d : PathC) (c : String → Bool) (names : List String)
    (m : String) :
    ∀ fs : FS,
      (condSweep d c fs names).lookupFile (joinP d m)
        = if m ∈ names ∧ c m = true then none else fs.lookupFile (joinP d m) := by
  induction names with
  | nil =>
    intro fs
    rw [condSweep_nil, if_neg (fun hco => List.not_mem_nil m hco.1)]
  | cons n ns ih =>
    intro fs
    rw [condSweep_cons, ih]
    by_cases hcn : c n = true
    · rw [if_pos hcn, lookupFile_removeFile]
      by_cases hmn : m = n
      · by_cases hns : m ∈ ns ∧ c m = true
        · rw [if_pos hns, if_pos ⟨List.mem_cons_of_mem n hns.1, hns.2⟩]
        · rw [if_neg hns, if_pos (show joinP d m = joinP d n by rw [hmn]),
            if_pos ⟨by rw [hmn]; exact List.mem_cons_self n ns, by rw [hmn]; exact hcn⟩]
      · have hne : joinP d m ≠ joinP d n := fun h => hmn (joinP_inj h).2
        by_cases hns : m ∈ ns ∧ c m = true
        · rw [if_pos hns, if_pos ⟨List.mem_cons_of_mem n hns.1, hns.2⟩]
        · have h2 : ¬(m ∈ n :: ns ∧ c m = true) := by
            rintro ⟨hmem, hcm⟩
            rcases List.mem_cons.1 hmem with heq | hmem'
            · exact hmn heq
            · exact hns ⟨hmem', hcm⟩
          rw [if_neg hns, if_neg hne, if_neg h2]
    · rw [if_neg hcn]
      by_cases hns : m ∈ ns ∧ c m = true
      · rw [if_pos hns, if_pos ⟨List.mem_cons_of_mem n hns.1, hns.2⟩]
      · have h2 : ¬(m ∈ n :: ns ∧ c m = true) := by
          rintro ⟨hmem, hcm⟩
          rcases List.mem_cons.1 hmem with heq | hmem'
          · rw [heq] at hcm; exact hcn hcm
          · exact hns ⟨hmem', hcm⟩
        rw [if_neg hns, if_neg h2]

theorem scandirFiles_ok (fs : FS) (d : PathC) (hdir : fs.isdir d = true)
    (hacc : fs.inaccessible.contains d = false) :
    fs.scandirFiles d = .ok (fs.fileNamesIn d) := by
  unfold FS.scandirFiles
  rw [hacc, hdir]
  rfl

theorem sweepOutput_eq_condSweep (stems ls : List String) (o : OutputConfig) (fs : FS) :
    sweepOutput id stems ls o fs
      = match fs.scandirFiles o.path with
        | .error _ => fs
        | .ok names => condSweep o.path (orphanCond id stems ls o) fs names := by
  unfold sweepOutput condSweep
  cases fs.scandirFiles o.path with
  | error e => rfl
  | ok names => simp only [nfcPath_id]

theorem sweepSidecars_eq_condSweep (stems : List String) (o : OutputConfig) (fs : FS) :
    sweepSidecars id stems o fs
      = match fs.scandirFiles o.path with
        | .error _ => fs
        | .ok names =>
          condSweep o.path
            (fun n => SIDECAR_EXTENSIONS.any (fun e => strEnds (strLower n) e)
              && !stems.contains (pyStem n)) fs names := by
  unfold sweepSidecars condSweep
  cases fs.scandirFiles o.path with
  | error e => rfl
  | ok names => simp only [nfcPath_id, id_eq]

theorem sweepOutput_dirs (stems ls : List String) (o : OutputConfig) (fs : FS) :
    (sweepOutput id stems ls o fs).dirs = fs.dirs := by
  rw [sweepOutput_eq_condSweep]
  cases fs.scandirFiles o.path with
  | error e => rfl
  | ok names => exact condSweep_dirs _ _ _ fs

theorem sweepOutput_isdir (stems ls : List String) (o : OutputConfig) (fs : FS)
    (p : PathC) : (sweepOutput id stems ls o fs).isdir p = fs.isdir p := by
  unfold FS.isdir
  rw [sweepOutput_dirs]

theorem sweepOutput_inacc (stems ls : List String) (o : OutputConfig) (fs : FS) :
    (sweepOutput id stems ls o fs).inaccessible = fs.inaccessible := by
  rw [sweepOutput_eq_condSweep]
  cases fs.scandirFiles o.path with
  | error e => rfl
  | ok names => exact condSweep_inacc _ _ _ fs

theorem sweepOutput_lookup_ne (stems ls : List String) (o : OutputConfig) (fs : FS)
    (q : PathC) (hq : q.dropLast ≠ o.path) :
    (sweepOutput id stems ls o fs).lookupFile q = fs.lookupFile q := by
  rw [sweepOutput_eq_condSweep]
  cases fs.scandirFiles o.path with
  | error e => rfl
  | ok names =>
    exact condSweep_lookup_of_ne _ _ _ q
      (fun n _ h => hq (by rw [h, dropLast_joinP])) fs

theorem sweepOutput_fileNamesIn_ne (stems ls : List String) (o : OutputConfig)
    (fs : FS) (d' : PathC) (hd : d' ≠ o.path) :
    (sweepOutput id stems ls o fs).fileNamesIn d' = fs.fileNamesIn d' := by
  rw [sweepOutput_eq_condSweep]
  cases fs.scandirFiles o.path with
  | error e => rfl
  | ok names => exact condSweep_fileNamesIn _ _ _ d' hd fs

theorem sweepOutput_lookup_self (stems ls : List String) (o : OutputConfig) (fs : FS)
    (m : String) (hdir : fs.isdir o.path = true)
    (hacc : fs.inaccessible.contains o.path = false) :
    (sweepOutput id stems ls o fs).lookupFile (joinP o.path m)
      = if m ∈ fs.fileNamesIn o.path ∧ orphanCond id stems ls o m = true then none
        else fs.lookupFile (joinP o.path m) := by
  rw [sweepOutput_eq_condSweep, scandirFiles_ok fs o.path hdir hacc]
  exact condSweep_lookup _ _ _ m fs

theorem sweepSidecars_lookup_ns (stems : List String) (o : OutputConfig) (fs : FS)
    (d : PathC) (m : String)
    (hside : SIDECAR_EXTENSIONS.any (fun e => strEnds (strLower m) e) = false) :
    (sweepSidecars id stems o fs).lookupFile (joinP d m) = fs.lookupFile (joinP d m) := by
  rw [sweepSidecars_eq_condSweep]
  cases fs.scandirFiles o.path with
  | error e => rfl
  | ok names =>
    refine condSweep_lookup_of_ne _ _ _ _ ?_ fs
    intro n hc h
    obtain ⟨-, rfl⟩ := joinP_inj h
    rw [Bool.and_eq_true] at hc
    rw [hc.1] at hside
    exact absurd hside (by decide)

theorem sweepFold_lookup_ne (stems ls : List String) (q : PathC)
    (outs : List OutputConfig) :
    ∀ fs : FS, (∀ b ∈ outs, q.dropLast ≠ b.path) →
      (outs.foldl (fun fs o' => sweepOutput id stems ls o' fs) fs).lookupFile q
        = fs.lookupFile q := by
  induction outs with
  | nil => intro fs _; rfl
  | cons o' os ih =>
    intro fs hq
    simp only [List.foldl_cons]
    rw [ih (sweepOutput id stems ls o' fs) (fun b hb => hq b (List.mem_cons_of_mem o' hb)),
      sweepOutput_lookup_ne stems ls o' fs q (hq o' (List.mem_cons_self o' os))]

theorem sweepFold_lookup (stems ls : List String) (o : OutputConfig) (m : String)
    (outs : List OutputConfig) :
    ∀ fs : FS, o ∈ outs → List.Pairwise (fun a b => a.path ≠ b.path) outs →
      fs.isdir o.path = true → fs.inaccessible.contains o.path = false →
      (outs.foldl (fun fs o' => sweepOutput id stems ls o' fs) fs).lookupFile
          (joinP o.path m)
        = if m ∈ fs.fileNamesIn o.path ∧ orphanCond id stems ls o m = true then none
          else fs.lookupFile (joinP o.path m) := by
  induction outs with
  | nil => intro fs ho _ _ _; exact absurd ho (List.not_mem_nil o)
  | cons o' os ih =>
    intro fs ho hpw hdir hacc
    obtain ⟨hhead, hpw'⟩ := List.pairwise_cons.1 hpw
    simp only [List.foldl_cons]
    rcases List.mem_cons.1 ho with heq | hmem
    · subst heq
      rw [sweepFold_lookup_ne stems ls (joinP o.path m) os
          (sweepOutput id stems ls o fs)
          (fun b hb => by rw [dropLast_joinP]; exact hhead b hb),
        sweepOutput_lookup_self stems ls o fs m hdir hacc]
    · have hno : o.path ≠ o'.path := fun h => hhead o hmem h.symm
      rw [ih (sweepOutput id stems ls o' fs) hmem hpw'
          (by rw [sweepOutput_isdir]; exact hdir)
          (by rw [sweepOutput_inacc]; exact hacc),
        sweepOutput_fileNamesIn_ne stems ls o' fs o.path hno,
        sweepOutput_lookup_ne stems ls o' fs (joinP o.path m)
          (by rw [dropLast_joinP]; exact hno)]

theorem sidecarFold_lookup_ne (stems : List String) (d : PathC) (m : String)
    (hside : SIDECAR_EXTENSIONS.any (fun e => strEnds (strLower m) e) = false)
    (outs : List OutputConfig) :
    ∀ fs : FS,
      (outs.foldl (fun fs o' => sweepSidecars id stems o' fs) fs).lookupFile (joinP d m)
        = fs.lookupFile (joinP d m) := by
  induction outs with
  | nil => intro fs; rfl
  | cons o' os ih =>
    intro fs
    simp only [List.foldl_cons]
    rw [ih (sweepSidecars id stems o' fs),
      sweepSidecars_lookup_ns stems o' fs d m hside]

theorem orphanCond_false_iff (stems ls : List String) (o : OutputConfig) (m : String)
    (hvalid : (validExtensions o).any (fun e => strEnds m e) = true) :
    orphanCond id stems ls o m = false
      ↔ stems.contains (pyStem m) = true
        ∧ ¬(o.codec = "alac" ∧ strEnds m ".mp3" = true
            ∧ ls.contains (pyStem m) = true) := by
  unfold orphanCond
  simp only [id_eq]
  rw [hvalid, Bool.true_and]
  constructor
  · intro h
    have hA : stems.contains (pyStem m) = true := by
      cases hA' : stems.contains (pyStem m)
      · rw [hA'] at h; simp at h
      · rfl
    refine ⟨hA, ?_⟩
    rintro ⟨h1, h2, h3⟩
    rw [hA, h2, h3, decide_eq_true h1] at h
    simp at h
  · rintro ⟨hA, hnB⟩
    rw [hA]
    have hB : (decide (o.codec = "alac") && strEnds m ".mp3"
        && ls.contains (pyStem m)) = false := by
      cases hd1 : decide (o.codec = "alac")
      · rw [Bool.false_and, Bool.false_and]
      · cases hd2 : strEnds m ".mp3"
        · rw [Bool.true_and, Bool.false_and]
        · cases hd3 : ls.contains (pyStem m)
          · rw [Bool.and_false]
          · exact absurd ⟨of_decide_eq_true hd1, hd2, hd3⟩ hnB
    rw [hB]
    rfl

/-- **C4.**  During the orphan sweep (`_cleanup_orphans`), for each output
target whose directory exists and is readable, a file in that directory
bearing one of the target's valid extensions survives the sweep exactly
when it existed beforehand, its NFC-normalised stem is in the enumerated
source-stem set, and it is not a copied `.mp3` in the ALAC target whose
stem has a lossless counterpart in the source directory; in particular
exactly the entries failing that condition are deleted.  Stated for an
NFC normalisation that is the identity on the names involved, pairwise
distinct output directories, and a supported codec. -/
theorem C4_orphan_sweep_exactness (nfc : String → String) (cfg : Config)
    (stems : List String) (fs : FS) (o : OutputConfig) (m : String)
    (hnfc : ∀ s, nfc s = s) (ho : o ∈ cfg.outputs)
    (hpw : List.Pairwise (fun a b => a.path ≠ b.path) cfg.outputs)
    (hcodec : o.codec ∈ supportedCodecs)
    (hvalid : (validExtensions o).any (fun e => strEnds m e) = true)
    (hdir : fs.isdir o.path = true)
    (hacc : fs.inaccessible.contains o.path = false) :
    (cleanup_orphans nfc cfg stems fs).isfile (joinP o.path m) = true
      ↔ fs.isfile (joinP o.path m) = true
        ∧ stems.contains (nfc (pyStem m)) = true
        ∧ ¬(o.codec = "alac" ∧ strEnds m ".mp3" = true
            ∧ (losslessStems nfc cfg fs).contains (nfc (pyStem m)) = true) := by
  have hfun : nfc = id := funext hnfc
  subst hfun
  simp only [id_eq]
  have hside : SIDECAR_EXTENSIONS.any (fun e => strEnds (strLower m) e) = false :=
    valid_not_sidecar o m hcodec hvalid
  have hwhole : cleanup_orphans id cfg stems fs
      = cfg.outputs.foldl (fun g o' => sweepSidecars id stems o' g)
          (cfg.outputs.foldl
            (fun g o' => sweepOutput id stems (losslessStems id cfg fs) o' g) fs) := rfl
  rw [hwhole]
  unfold FS.isfile
  rw [sidecarFold_lookup_ne stems o.path m hside cfg.outputs
      (cfg.outputs.foldl
        (fun g o' => sweepOutput id stems (losslessStems id cfg fs) o' g) fs),
    sweepFold_lookup stems (losslessStems id cfg fs) o m cfg.outputs fs ho hpw hdir hacc]
  by_cases hmem : m ∈ fs.fileNamesIn o.path
  · by_cases hc : orphanCond id stems (losslessStems id cfg fs) o m = true
    · rw [if_pos ⟨hmem, hc⟩]
      constructor
      · intro h; exact absurd h (by decide)
      · rintro ⟨-, hA, hnB⟩
        have hcf : orphanCond id stems (losslessStems id cfg fs) o m = false :=
          (orphanCond_false_iff stems (losslessStems id cfg fs) o m hvalid).2 ⟨hA, hnB⟩
        rw [hc] at hcf
        exact absurd hcf (by decide)
    · have hcf : orphanCond id stems (losslessStems id cfg fs) o m = false := by
        cases hx : orphanCond id stems (losslessStems id cfg fs) o m
        · rfl
        · exact absurd hx hc
      obtain ⟨hA, hnB⟩ :=
        (orphanCond_false_iff stems (losslessStems id cfg fs) o m hvalid).1 hcf
      rw [if_neg (fun hco => hc hco.2)]
      have hfm : (fs.lookupFile (joinP o.path m)).isSome = true :=
        (isfile_iff_mem_fileNamesIn fs o.path m).2 hmem
      rw [hfm]
      exact ⟨fun _ => ⟨rfl, hA, hnB⟩, fun _ => rfl⟩
  · have hfm : (fs.lookupFile (joinP o.path m)).isSome = false := by
      cases hx : (fs.lookupFile (joinP o.path m)).isSome
      · rfl
      · exact absurd ((isfile_iff_mem_fileNamesIn fs o.path m).1 hx) hmem
    rw [if_neg (fun hco => hmem hco.1), hfm]
    exact ⟨fun h => absurd h (by decide), fun h => absurd h.1 (by decide)⟩

def c4wO1 : OutputConfig := { name := "alac", codec := "alac", path := ["outA"] }

def c4wO2 : OutputConfig := { name := "aac", codec := "aac", path := ["outB"] }

def c4wCfg : Config := { source_path := ["src"], outputs := [c4wO1, c4wO2] }

def c4wFS : FS :=
  { files := [(["outA", "gone.m4a"], {}), (["outA", "keep.m4a"], {}),
      (["src", "keep.flac"], {})],
    dirs := [["outA"], ["outB"], ["src"]] }

/-- Concrete instance of the C4 sweep characterisation: a two-target
configuration, an ALAC artifact `gone.m4a` whose stem is not among the
source stems, so both sides of the equivalence are false. -/
theorem C4_orphan_sweep_exactness_witness :
    (cleanup_orphans id c4wCfg ["keep"] c4wFS).isfile (joinP ["outA"] "gone.m4a") = true
      ↔ c4wFS.isfile (joinP ["outA"] "gone.m4a") = true
        ∧ (["keep"] : List String).contains (id (pyStem "gone.m4a")) = true
        ∧ ¬(c4wO1.codec = "alac" ∧ strEnds "gone.m4a" ".mp3" = true
            ∧ (losslessStems id c4wCfg c4wFS).contains (id (pyStem "gone.m4a")) = true) :=
  C4_orphan_sweep_exactness id c4wCfg ["keep"] c4wFS c4wO1 "gone.m4a"
    (fun _ => rfl) (by decide) (by decide) (by decide) (by decide) (by decide) (by decide)

end ATW
